import Mathlib

/-!
# Array-backed binary min-heap of (element, priority) pairs — `src/heap.h`

Shallow embedding of the class `Heap` and a verification of its documented
behaviour.

Modelling conventions.

* `int` values are `Int`s.  The capacity sums of the two constructors that add
  their arguments (`s + c`, `Heap1.hSize + Heap2.hSize + c`) are computed with
  the 32-bit wrap-around `int32`, and `new Pair[hCapacity]` with a negative
  length throws, in which case no heap is constructed.  The only other
  arithmetic the class performs is on indices (`2*i+1`, `2*i+2`, `(i-1)/2`,
  `hSize ± 1`); priorities and elements are only copied and compared, so there
  machine overflow plays no role for heaps of fewer than `2^30` pairs.
* The buffer `A` is a total map from indices to pairs.  `new Pair[hCapacity]`
  does not initialise the pairs, so every constructor receives the
  indeterminate initial content of the buffer `new` returned as an argument
  `mem`.  Reads and writes at an
  index outside `[0, hCapacity)` are not trapped by the class; they are
  modelled as ordinary reads and writes of the same map.
* The recursive repairs `trickleUp` and `trickleDown` are run with a fuel
  counter and return `none` when the fuel is exhausted, so that a result
  `some _` is always a result of the source recursion.  The fuel supplied by
  `Heap.trickleUp` and `Heap.trickleDown` is shown to suffice.  A constructor
  whose `new Pair[hCapacity]` throws because the length is negative also yields
  `none`.  A `new` of non-negative length is taken to return the buffer `mem`:
  running out of memory is not modelled.
-/

namespace HeapSpec

/-- The nested class `Heap::Pair`: two public `int` members. -/
structure Pair where
  element : Int
  priority : Int
deriving DecidableEq, Repr

/-- The data members of `class Heap`: the array `A`, `hCapacity`, `hSize`. -/
structure Heap where
  A : Int → Pair
  hCapacity : Int
  hSize : Int

namespace Heap

/-- The assignment `A[i] = p`. -/
def setSlot (h : Heap) (i : Int) (p : Pair) : Heap :=
  { h with A := fun k => if k = i then p else h.A k }

/-- The assignment `A[i].priority = v`. -/
def setPriority (h : Heap) (i : Int) (v : Int) : Heap :=
  h.setSlot i { h.A i with priority := v }

/-- The assignment `A[i].element = v`. -/
def setElement (h : Heap) (i : Int) (v : Int) : Heap :=
  h.setSlot i { h.A i with element := v }

/-- The assignment `hSize = n` (used for `hSize++` and `hSize--`). -/
def setSize (h : Heap) (n : Int) : Heap :=
  { h with hSize := n }

/-- Embeds `Heap::Heap()`: capacity 10, size 0, buffer content `mem` left as allocated. -/
def new (mem : Int → Pair) : Heap :=
  { A := mem, hCapacity := 10, hSize := 0 }

/-- Embeds `Heap::Heap(int c)`: capacity `c`, size 0, buffer content `mem` left as allocated. -/
def newCap (mem : Int → Pair) (c : Int) : Heap :=
  { A := mem, hCapacity := c, hSize := 0 }

/-- Embeds `bool empty() const`. -/
def empty (h : Heap) : Bool := decide (h.hSize = 0)

/-- Embeds `int size() const`. -/
def size (h : Heap) : Int := h.hSize

/-- Embeds `int capacity() const`. -/
def capacity (h : Heap) : Int := h.hCapacity

/-- Embeds `int peekMin() const { return A[0].element; }`. -/
def peekMin (h : Heap) : Int := (h.A 0).element

/-- Embeds `int peekMinPriority() const { return A[0].priority; }`. -/
def peekMinPriority (h : Heap) : Int := (h.A 0).priority

/-- Embeds `void Heap::swap(int i, int j)`: `temp = A[i]; A[i] = A[j]; A[j] = temp`. -/
def swap (h : Heap) (i j : Int) : Heap :=
  let temp := h.A i
  (h.setSlot i (h.A j)).setSlot j temp

/-- Embeds `void Heap::trickleUp(int i)` with a fuel counter; `(curr-1)/2` is C++
integer division, which truncates toward zero. -/
def trickleUpFuel : Nat → Heap → Int → Option Heap
  | 0, _, _ => none
  | fuel + 1, h, i =>
    let curr := i
    let parent := Int.tdiv (curr - 1) 2
    if curr ≤ 0 ∨ (h.A parent).priority < (h.A curr).priority then
      some h
    else
      trickleUpFuel fuel (h.swap parent curr) parent

/-- Embeds `trickleUp(i)`; every recursive call is on a smaller positive index, so
`i.toNat + 1` calls are enough. -/
def trickleUp (h : Heap) (i : Int) : Option Heap :=
  trickleUpFuel (i.toNat + 1) h i

/-- Embeds `void Heap::insert(int element, int priority)`. -/
def insert (h : Heap) (element priority : Int) : Option Heap :=
  let h1 := h.setElement h.hSize element
  let h2 := h1.setPriority h1.hSize priority
  (h2.trickleUp h2.hSize).map fun h3 => h3.setSize (h3.hSize + 1)

/-- Embeds `void Heap::trickleDown(int i)` with a fuel counter. -/
def trickleDownFuel : Nat → Heap → Int → Option Heap
  | 0, _, _ => none
  | fuel + 1, h, i =>
    let curr := i
    let lchild := 2 * curr + 1
    let rchild := 2 * curr + 2
    if curr ≥ h.hSize - 1 then
      some h
    else if (h.A rchild).priority ≠ -1 ∧ (h.A lchild).priority ≠ -1 then
      if (h.A curr).priority > (h.A lchild).priority
          ∨ (h.A curr).priority > (h.A rchild).priority then
        if (h.A lchild).priority < (h.A rchild).priority then
          trickleDownFuel fuel (h.swap curr lchild) lchild
        else
          trickleDownFuel fuel (h.swap curr rchild) rchild
      else
        some h
    else if (h.A lchild).priority ≠ -1 then
      if (h.A curr).priority > (h.A lchild).priority then
        some (h.swap curr lchild)
      else
        some h
    else
      some h

/-- Embeds `trickleDown(i)`; for `i ≥ 0` every recursive call is on a larger index
below `hSize - 1`, so `(hSize - i).toNat + 1` calls are enough. -/
def trickleDown (h : Heap) (i : Int) : Option Heap :=
  trickleDownFuel ((h.hSize - i).toNat + 1) h i

/-- Embeds `int Heap::extractMin()`: the returned element and the heap afterwards. -/
def extractMin (h : Heap) : Option (Int × Heap) :=
  let min := (h.A 0).element
  let h1 := h.swap 0 (h.hSize - 1)
  let h2 := h1.setPriority (h1.hSize - 1) (-1)
  let h3 := h2.setSize (h2.hSize - 1)
  (h3.trickleDown 0).map fun h4 => (min, h4)

/-- The value an `int` computation yields on the 32-bit two's-complement
machine: `x` wrapped around into `[-2^31, 2^31)`. -/
def int32 (x : Int) : Int :=
  (x + 2147483648) % 4294967296 - 2147483648

/-- Embeds `Heap::Heap(const int* Priorities, const int* Elements, int s, int c)`:
`hCapacity = s+c` in `int` arithmetic, `A = new Pair[hCapacity]`, which throws
`std::bad_array_new_length` when `hCapacity` is negative (the result is then
`none`: no heap is constructed), and the loop
`for (i = 0; i < s; i++) insert(Elements[i], Priorities[i])`.  The arrays are
lists; an index past the end of a list (excluded by the documented
requirement) reads 0. -/
def fromArrays (mem : Int → Pair) (Priorities Elements : List Int) (s c : Int) :
    Option Heap :=
  let hCapacity := int32 (s + c)
  if hCapacity < 0 then
    none
  else
    (List.range s.toNat).foldlM
      (fun (h : Heap) (i : Nat) => h.insert (Elements.getD i 0) (Priorities.getD i 0))
      ({ A := mem, hCapacity := hCapacity, hSize := 0 } : Heap)

/-- One of the two copy loops of the merge constructor:
`for (i = 0; i < H.hSize; i++) insert(H.A[i].element, H.A[i].priority)`. -/
def insertFrom (h H : Heap) : Option Heap :=
  (List.range H.hSize.toNat).foldlM
    (fun (g : Heap) (i : Nat) => g.insert (H.A (i : Int)).element (H.A (i : Int)).priority) h

/-- Embeds `Heap::Heap(const Heap& Heap1, const Heap& Heap2, int c)`:
`hCapacity = Heap1.hSize + Heap2.hSize + c` in `int` arithmetic,
`A = new Pair[hCapacity]`, which throws when `hCapacity` is negative (the
result is then `none`), and the two copy loops.  The constructor never
assigns `hSize`, so the value `sz0` that member happens to hold is an
argument, like `mem`. -/
def merge (mem : Int → Pair) (sz0 : Int) (Heap1 Heap2 : Heap) (c : Int) :
    Option Heap :=
  let hCapacity := int32 (int32 (Heap1.hSize + Heap2.hSize) + c)
  if hCapacity < 0 then
    none
  else
    (insertFrom { A := mem, hCapacity := hCapacity, hSize := sz0 } Heap1).bind
      fun h => insertFrom h Heap2

/-- The pairs in slots `[0, hSize)`, in index order. -/
def contents (h : Heap) : List Pair :=
  (List.range h.hSize.toNat).map fun (k : Nat) => h.A (k : Int)

/-- The min-heap property of the slots `[0, hSize)`: each slot's priority is
at most the priority of each of its children `2i+1`, `2i+2` below `hSize`. -/
def MinHeapInv (h : Heap) : Prop :=
  ∀ i : Nat, i < h.hSize.toNat →
    (2 * (i : Int) + 1 < h.hSize →
        (h.A (i : Int)).priority ≤ (h.A (2 * (i : Int) + 1)).priority) ∧
    (2 * (i : Int) + 2 < h.hSize →
        (h.A (i : Int)).priority ≤ (h.A (2 * (i : Int) + 2)).priority)

instance (h : Heap) : Decidable (MinHeapInv h) := by
  unfold MinHeapInv; infer_instance

/-- The priority stored in slot `i` of a buffer. -/
def prio (A : Int → Pair) (i : Int) : Int := (A i).priority

/-- The pairs in slots `[0, n)` of a buffer, in index order. -/
def slots (A : Int → Pair) (n : Int) : List Pair :=
  (List.range n.toNat).map fun (k : Nat) => A (k : Int)

/-- The min-heap ordering of slots `[0, n)` of a buffer, over integer indices. -/
def HeapOrd (A : Int → Pair) (n : Int) : Prop :=
  ∀ i : Int, 0 ≤ i →
    (2 * i + 1 < n → prio A i ≤ prio A (2 * i + 1)) ∧
    (2 * i + 2 < n → prio A i ≤ prio A (2 * i + 2))

/-- The same ordering stated from the child's side: every slot `c` with
`0 < c < n` has a priority at least that of its parent `(c-1)/2`. -/
def ParOrd (A : Int → Pair) (n : Int) : Prop :=
  ∀ c : Int, 0 < c → c < n → prio A ((c - 1) / 2) ≤ prio A c

/-- The state of the buffer while a leaf is trickling up and sits at `curr`:
every slot other than `curr` is ordered against its parent, and the children
of `curr` are ordered against the parent of `curr`. -/
def UpInv (A : Int → Pair) (n curr : Int) : Prop :=
  (∀ c : Int, 0 < c → c < n → c ≠ curr → prio A ((c - 1) / 2) ≤ prio A c) ∧
  (∀ c : Int, 0 < c → c < n → (c - 1) / 2 = curr → 0 < curr →
    prio A ((curr - 1) / 2) ≤ prio A c)

/-- A caller inserting the pairs of a list one by one. -/
def insertAll (h : Heap) : List Pair → Option Heap
  | [] => some h
  | p :: ps => (h.insert p.element p.priority).bind fun h1 => insertAll h1 ps

/-- A caller calling `extractMin` `n` times.  Each returned element is
recorded together with the priority `peekMinPriority()` reported just before
the call, i.e. the priority stored with that element at the root. -/
def drain : Nat → Heap → Option (List Pair × Heap)
  | 0, h => some ([], h)
  | n + 1, h =>
    (h.extractMin).bind fun r =>
      (drain n r.2).map fun rest =>
        ({ element := r.1, priority := h.peekMinPriority } :: rest.1, rest.2)

/-- A caller that calls `extractMin` `n` times and keeps the returned elements. -/
def extractN (n : Nat) (h : Heap) : Option (List Int) :=
  (drain n h).map fun r => r.1.map Pair.element

/-- States a caller can reach from `Heap()` or `Heap(c)` with `c ≥ 0` by calls
of `insert` made while `size() < capacity()` and calls of `extractMin` made
while `size() > 0`. -/
inductive Reachable : Heap → Prop
  | new (mem : Int → Pair) : Reachable (Heap.new mem)
  | newCap (mem : Int → Pair) (c : Int) : 0 ≤ c → Reachable (Heap.newCap mem c)
  | insert (h h1 : Heap) (e p : Int) :
      Reachable h → h.size < h.capacity → h.insert e p = some h1 → Reachable h1
  | extractMin (h h1 : Heap) (e : Int) :
      Reachable h → 0 < h.size → h.extractMin = some (e, h1) → Reachable h1

/-- States a caller can reach from `Heap()` or `Heap(c)` with `c ≥ 0` by any
calls of `insert` and `extractMin`, whatever the size at the time of the call. -/
inductive ReachableAny : Heap → Prop
  | new (mem : Int → Pair) : ReachableAny (Heap.new mem)
  | newCap (mem : Int → Pair) (c : Int) : 0 ≤ c → ReachableAny (Heap.newCap mem c)
  | insert (h h1 : Heap) (e p : Int) :
      ReachableAny h → h.insert e p = some h1 → ReachableAny h1
  | extractMin (h h1 : Heap) (e : Int) :
      ReachableAny h → h.extractMin = some (e, h1) → ReachableAny h1

/-- The loop of `heapify`: `heapifyLoop (k + 1)` runs the body `trickleDown(i)`
for `i = k` and goes on with `i = k - 1`, down to `i = 0`. -/
def heapifyLoop : Nat → Heap → Option Heap
  | 0, h => some h
  | k + 1, h => (h.trickleDown (k : Int)).bind fun h1 => heapifyLoop k h1

/-- Embeds `void Heap::heapify()`:
`for (int i = (hSize/2)-1; i >= 0; i--) trickleDown(i);`, the division being
C++ integer division. -/
def heapify (h : Heap) : Option Heap :=
  heapifyLoop (Int.tdiv h.hSize 2 - 1 + 1).toNat h

/-- The buffer after the two field writes of `insert`, before `trickleUp`. -/
def written (h : Heap) (element priority : Int) : Heap :=
  (h.setElement h.hSize element).setPriority (h.setElement h.hSize element).hSize priority

/-- The heap on which `extractMin` calls `trickleDown(0)`: after `swap(0, hSize-1)`,
`A[hSize-1].priority = -1` and `hSize--`. -/
def vacated (h : Heap) : Heap :=
  ((h.swap 0 (h.hSize - 1)).setPriority ((h.swap 0 (h.hSize - 1)).hSize - 1) (-1)).setSize
    (((h.swap 0 (h.hSize - 1)).setPriority ((h.swap 0 (h.hSize - 1)).hSize - 1) (-1)).hSize - 1)

/-- The state of the buffer while a pair is trickling down and sits at `curr`:
every slot whose parent is not `curr` is ordered against its parent, and the
children of `curr` are ordered against the parent of `curr`. -/
def DownInv (A : Int → Pair) (n curr : Int) : Prop :=
  (∀ c : Int, 0 < c → c < n → (c - 1) / 2 ≠ curr → prio A ((c - 1) / 2) ≤ prio A c) ∧
  (∀ c : Int, 0 < c → c < n → (c - 1) / 2 = curr → 0 < curr →
    prio A ((curr - 1) / 2) ≤ prio A c)

/-- The assumption under which the sentinel test of `trickleDown` agrees with
the bounds test `index < n`: no slot in `[0, n)` holds priority `-1`, and
every slot in `[n, 2n - 2]`, where all child reads past the heap fall (a node
that reads its children has an index below `n - 1`), does. -/
def SentinelOk (A : Int → Pair) (n : Int) : Prop :=
  (∀ k : Int, 0 ≤ k → k < n → prio A k ≠ -1) ∧
  (∀ k : Int, n ≤ k → k < 2 * n - 1 → prio A k = -1)

/-- Every buffer slot at an index `i` with `hSize ≤ i < hCapacity` holds
priority `-1`. -/
def SentinelSlots (h : Heap) : Prop :=
  ∀ k : Int, h.hSize ≤ k → k < h.hCapacity → (h.A k).priority = -1

instance (h : Heap) : Decidable (SentinelSlots h) := by
  unfold SentinelSlots; infer_instance

end Heap

/-- Buffer content in which every pair is `(0, -1)`. -/
def sentinelMem : Int → Pair := fun _ => { element := 0, priority := -1 }

/-- Buffer content in which every pair is `(42, 17)`. -/
def staleMem : Int → Pair := fun _ => { element := 42, priority := 17 }

/-- Four pairs, one of which carries the priority `-1`. -/
def minusOnePairs : List Pair :=
  [{ element := 10, priority := -2 }, { element := 20, priority := 5 },
   { element := 30, priority := -1 }, { element := 40, priority := 7 }]

/-- A heap of capacity 2 holding `(Y, 2)` at the root and `(X, 5)` below it,
with `X = 1`, `Y = 2`. -/
def heapXY : Heap :=
  { A := fun k =>
      if k = 0 then { element := 2, priority := 2 }
      else if k = 1 then { element := 1, priority := 5 }
      else { element := 0, priority := -1 },
    hCapacity := 2, hSize := 2 }

/-- A heap of capacity 5 holding three pairs with priorities 1, 4, 2. -/
def heapW : Heap :=
  { A := fun k =>
      if k = 0 then { element := 11, priority := 1 }
      else if k = 1 then { element := 12, priority := 4 }
      else if k = 2 then { element := 13, priority := 2 }
      else { element := 0, priority := -1 },
    hCapacity := 5, hSize := 3 }

/-- A heap of capacity 1 holding `(Z, 1)`, with `Z = 3`. -/
def heapZ : Heap :=
  { A := fun k =>
      if k = 0 then { element := 3, priority := 1 }
      else { element := 0, priority := -1 },
    hCapacity := 1, hSize := 1 }

/-- A full heap of capacity 4 whose root has two children of equal priority 3. -/
def heapTie : Heap :=
  { A := fun k =>
      if k = 0 then { element := 21, priority := 1 }
      else if k = 1 then { element := 22, priority := 3 }
      else if k = 2 then { element := 23, priority := 3 }
      else if k = 3 then { element := 24, priority := 9 }
      else { element := 0, priority := -1 },
    hCapacity := 4, hSize := 4 }

/-- The buffer a heap of capacity 4 holds after `insert(10,-2)`, `insert(20,5)`,
`insert(30,-1)`, `insert(40,7)` and one `extractMin()`: three stored pairs with
priorities 5, 7, -1 and the vacated slot 3. -/
def bufferMinusOne : Heap :=
  { A := fun k =>
      if k = 0 then { element := 20, priority := 5 }
      else if k = 1 then { element := 40, priority := 7 }
      else if k = 2 then { element := 30, priority := -1 }
      else if k = 3 then { element := 10, priority := -1 }
      else { element := 0, priority := -1 },
    hCapacity := 4, hSize := 3 }

/-- A full heap of capacity 6 with priorities 1, 5, 2, 6, 7, 9; every slot
past the capacity holds priority `-1`. -/
def heapSix : Heap :=
  { A := fun k =>
      if k = 0 then { element := 31, priority := 1 }
      else if k = 1 then { element := 32, priority := 5 }
      else if k = 2 then { element := 33, priority := 2 }
      else if k = 3 then { element := 34, priority := 6 }
      else if k = 4 then { element := 35, priority := 7 }
      else if k = 5 then { element := 36, priority := 9 }
      else { element := 0, priority := -1 },
    hCapacity := 6, hSize := 6 }

/-- An unordered buffer of eight pairs with priorities 9, 8, 1, 2, 3, 4, 5, 6. -/
def bufferEight : Heap :=
  { A := fun k =>
      if k = 0 then { element := 40, priority := 9 }
      else if k = 1 then { element := 41, priority := 8 }
      else if k = 2 then { element := 42, priority := 1 }
      else if k = 3 then { element := 43, priority := 2 }
      else if k = 4 then { element := 44, priority := 3 }
      else if k = 5 then { element := 45, priority := 4 }
      else if k = 6 then { element := 46, priority := 5 }
      else if k = 7 then { element := 47, priority := 6 }
      else { element := 0, priority := -1 },
    hCapacity := 8, hSize := 8 }

namespace Heap

/-! ## Index arithmetic, `swap` and the stored multiset -/

theorem minHeapInv_iff (h : Heap) : MinHeapInv h ↔ HeapOrd h.A h.hSize := by
  unfold MinHeapInv HeapOrd prio
  constructor
  · intro H i hi
    by_cases hlt : i < h.hSize
    · have := H i.toNat (by omega)
      have e : ((i.toNat : Nat) : Int) = i := Int.toNat_of_nonneg hi
      rw [e] at this
      exact this
    · exact ⟨fun h1 => by omega, fun h1 => by omega⟩
  · intro H i _
    exact H i (by omega)

theorem swap_hSize (h : Heap) (i j : Int) : (h.swap i j).hSize = h.hSize := rfl
theorem swap_hCapacity (h : Heap) (i j : Int) : (h.swap i j).hCapacity = h.hCapacity := rfl

theorem swap_A (h : Heap) (i j k : Int) :
    (h.swap i j).A k = if k = j then h.A i else if k = i then h.A j else h.A k := rfl

theorem tdiv_parent (c : Int) (hc : 0 < c) : Int.tdiv (c - 1) 2 = (c - 1) / 2 :=
  Int.tdiv_eq_ediv (by omega) (by omega)

theorem range_map_swap (n a b : Nat) (ha : a < n) (hb : b < n) :
    Multiset.map (Equiv.swap a b) (Multiset.range n) = Multiset.range n := by
  have hs : {x | Equiv.swap a b x ≠ x} ⊆ ((Finset.range n : Finset Nat) : Set Nat) := by
    intro x hx
    simp only [Set.mem_setOf_eq] at hx
    simp only [Finset.coe_range, Set.mem_Iio]
    by_contra hcon
    apply hx
    exact Equiv.swap_apply_of_ne_of_ne (by omega) (by omega)
  have := congrArg Finset.val (Finset.map_perm hs)
  simpa [Finset.map_val] using this

theorem slots_swap_perm (h : Heap) (n i j : Int) (hi : 0 ≤ i) (hin : i < n)
    (hj : 0 ≤ j) (hjn : j < n) : (slots (h.swap i j).A n).Perm (slots h.A n) := by
  have key : ∀ k : Nat, (h.swap i j).A k = h.A ((Equiv.swap i.toNat j.toNat k : Nat) : Int) := by
    intro k
    rw [swap_A, Equiv.swap_apply_def]
    have ei : ((i.toNat : Nat) : Int) = i := Int.toNat_of_nonneg hi
    have ej : ((j.toNat : Nat) : Int) = j := Int.toNat_of_nonneg hj
    split_ifs <;> first | rfl | (congr 1; omega)
  rw [← Multiset.coe_eq_coe]
  unfold slots
  rw [← Multiset.map_coe, ← Multiset.map_coe, Multiset.coe_range]
  have e1 : (fun k : Nat => (h.swap i j).A k)
      = (fun k : Nat => h.A (k : Int)) ∘ (Equiv.swap i.toNat j.toNat) := by
    funext k; exact key k
  rw [e1, ← Multiset.map_map, range_map_swap n.toNat _ _ (by omega) (by omega)]

/-! ## `trickleUp` -/

theorem heapOrd_iff_parOrd (A : Int → Pair) (n : Int) : HeapOrd A n ↔ ParOrd A n := by
  constructor
  · intro H c hc hcn
    have hq : c = 2 * ((c - 1) / 2) + 1 ∨ c = 2 * ((c - 1) / 2) + 2 := by omega
    have := H ((c - 1) / 2) (by omega)
    rcases hq with e | e
    · have h1 := this.1 (by omega)
      rw [← e] at h1; exact h1
    · have h1 := this.2 (by omega)
      rw [← e] at h1; exact h1
  · intro H i hi
    constructor
    · intro h1
      have := H (2 * i + 1) (by omega) h1
      have e : (2 * i + 1 - 1) / 2 = i := by omega
      rw [e] at this; exact this
    · intro h1
      have := H (2 * i + 2) (by omega) h1
      have e : (2 * i + 2 - 1) / 2 = i := by omega
      rw [e] at this; exact this

theorem prio_swap_right (h : Heap) (p i : Int) : prio (h.swap p i).A i = prio h.A p := by
  unfold prio; rw [swap_A]; simp

theorem prio_swap_left (h : Heap) (p i : Int) (hne : p ≠ i) :
    prio (h.swap p i).A p = prio h.A i := by
  unfold prio; rw [swap_A]; simp [hne]

theorem prio_swap_other (h : Heap) (p i x : Int) (h1 : x ≠ i) (h2 : x ≠ p) :
    prio (h.swap p i).A x = prio h.A x := by
  unfold prio; rw [swap_A]; simp [h1, h2]

theorem upInv_swap (h : Heap) (n i : Int) (hi : 0 < i) (hin : i < n)
    (hle : prio h.A i ≤ prio h.A ((i - 1) / 2)) (H : UpInv h.A n i) :
    UpInv (h.swap ((i - 1) / 2) i).A n ((i - 1) / 2) := by
  obtain ⟨p, hp⟩ : ∃ p, p = (i - 1) / 2 := ⟨_, rfl⟩
  rw [← hp] at hle ⊢
  have hpi : p ≠ i := by omega
  constructor
  · intro c hc hcn hcp
    by_cases hci : c = i
    · subst hci
      rw [← hp, prio_swap_left h p c hpi, prio_swap_right]
      exact hle
    · rw [prio_swap_other h p i c hci hcp]
      have h1 := H.1 c hc hcn hci
      by_cases hq : (c - 1) / 2 = p
      · rw [hq] at h1 ⊢
        rw [prio_swap_left h p i hpi]
        exact le_trans hle h1
      · by_cases hq2 : (c - 1) / 2 = i
        · rw [hq2, prio_swap_right]
          have h2 := H.2 c hc hcn hq2 hi
          rw [← hp] at h2
          exact h2
        · rw [prio_swap_other h p i _ hq2 hq]
          exact h1
  · intro c hc hcn hq hp0
    rw [prio_swap_other h p i ((p - 1) / 2) (by omega) (by omega)]
    have h1 := H.1 p hp0 (by omega) hpi
    by_cases hci : c = i
    · subst hci
      rw [prio_swap_right]
      exact h1
    · rw [prio_swap_other h p i c hci (by omega)]
      have h2 := H.1 c hc hcn hci
      rw [hq] at h2
      exact le_trans h1 h2

theorem trickleUpFuel_total (fuel : Nat) : ∀ (h : Heap) (i : Int), i.toNat < fuel →
    ∃ h', trickleUpFuel fuel h i = some h' ∧ h'.hSize = h.hSize
      ∧ h'.hCapacity = h.hCapacity := by
  induction fuel with
  | zero => intro h i hf; omega
  | succ f ih =>
    intro h i hf
    by_cases hc : i ≤ 0 ∨ (h.A (Int.tdiv (i - 1) 2)).priority < (h.A i).priority
    · exact ⟨h, by simp [trickleUpFuel, hc], rfl, rfl⟩
    · have hpos : 0 < i := by
        by_contra hcon
        exact hc (Or.inl (by omega))
      obtain ⟨h', e, hs, hcap⟩ := ih (h.swap (Int.tdiv (i - 1) 2) i) (Int.tdiv (i - 1) 2)
        (by rw [tdiv_parent i hpos]; omega)
      exact ⟨h', by simp only [trickleUpFuel, hc, if_false]; exact e, hs, hcap⟩

theorem trickleUpFuel_ord (n : Int) (fuel : Nat) : ∀ (h h' : Heap) (i : Int),
    trickleUpFuel fuel h i = some h' → i < n → UpInv h.A n i → ParOrd h'.A n := by
  induction fuel with
  | zero => intro h h' i e; simp [trickleUpFuel] at e
  | succ f ih =>
    intro h h' i e hin H
    by_cases hc : i ≤ 0 ∨ (h.A (Int.tdiv (i - 1) 2)).priority < (h.A i).priority
    · simp only [trickleUpFuel, hc, if_true, Option.some.injEq] at e
      subst e
      intro c hc0 hcn
      by_cases hci : c = i
      · subst hci
        rcases hc with h0 | hlt
        · omega
        · rw [tdiv_parent c hc0] at hlt
          exact le_of_lt hlt
      · exact H.1 c hc0 hcn hci
    · simp only [trickleUpFuel, hc, if_false] at e
      have hpos : 0 < i := by
        by_contra hcon
        exact hc (Or.inl (by omega))
      have hle : prio h.A i ≤ prio h.A ((i - 1) / 2) := by
        have : ¬ (h.A (Int.tdiv (i - 1) 2)).priority < (h.A i).priority :=
          fun hlt => hc (Or.inr hlt)
        rw [tdiv_parent i hpos] at this
        exact not_lt.mp this
      rw [tdiv_parent i hpos] at e
      exact ih _ _ _ e (by omega) (upInv_swap h n i hpos hin hle H)

theorem trickleUpFuel_perm (n : Int) (fuel : Nat) : ∀ (h h' : Heap) (i : Int),
    trickleUpFuel fuel h i = some h' → i < n → (slots h'.A n).Perm (slots h.A n) := by
  induction fuel with
  | zero => intro h h' i e; simp [trickleUpFuel] at e
  | succ f ih =>
    intro h h' i e hin
    by_cases hc : i ≤ 0 ∨ (h.A (Int.tdiv (i - 1) 2)).priority < (h.A i).priority
    · simp only [trickleUpFuel, hc, if_true, Option.some.injEq] at e
      subst e
      exact List.Perm.refl _
    · simp only [trickleUpFuel, hc, if_false] at e
      have hpos : 0 < i := by
        by_contra hcon
        exact hc (Or.inl (by omega))
      rw [tdiv_parent i hpos] at e
      exact (ih _ _ _ e (by omega)).trans
        (slots_swap_perm h n _ _ (by omega) (by omega) (by omega) hin)

/-! ## `insert`, the root of an ordered buffer, `trickleDown` and `extractMin` -/

/-- The buffer after the two field writes of `insert`. -/
theorem insert_written_A (h : Heap) (e p : Int) (k : Int) :
    ((h.setElement h.hSize e).setPriority (h.setElement h.hSize e).hSize p).A k
      = if k = h.hSize then { element := e, priority := p } else h.A k := by
  simp only [setPriority, setElement, setSlot]
  split_ifs <;> simp_all

theorem upInv_written (A B : Int → Pair) (n : Int) (hB : ∀ k, k ≠ n → B k = A k)
    (H : ParOrd A n) : UpInv B (n + 1) n := by
  constructor
  · intro c hc hcn hne
    have h1 := H c hc (by omega)
    unfold prio at h1 ⊢
    rw [hB c hne, hB ((c - 1) / 2) (by omega)]
    exact h1
  · intro c hc hcn hq hpos
    omega

theorem slots_written (A B : Int → Pair) (n : Int) (x : Pair) (hn : 0 ≤ n)
    (hB : ∀ k, k ≠ n → B k = A k) (hx : B n = x) :
    slots B (n + 1) = slots A n ++ [x] := by
  unfold slots
  have e : (n + 1).toNat = n.toNat + 1 := by omega
  rw [e, List.range_succ, List.map_append]
  congr 1
  · apply List.map_congr_left
    intro k hk
    rw [List.mem_range] at hk
    exact hB k (by omega)
  · simp only [List.map_cons, List.map_nil]
    rw [Int.toNat_of_nonneg hn, hx]

theorem insert_spec (h : Heap) (e p : Int) :
    ∃ h', h.insert e p = some h' ∧ h'.hSize = h.hSize + 1
      ∧ h'.hCapacity = h.hCapacity
      ∧ (MinHeapInv h → MinHeapInv h')
      ∧ (0 ≤ h.hSize →
          (contents h').Perm (contents h ++ [{ element := e, priority := p }])) := by
  obtain ⟨h2, hh2⟩ : ∃ h2 : Heap, h2 =
      (h.setElement h.hSize e).setPriority (h.setElement h.hSize e).hSize p := ⟨_, rfl⟩
  have hA : ∀ k, h2.A k = if k = h.hSize then { element := e, priority := p } else h.A k := by
    intro k; rw [hh2]; exact insert_written_A h e p k
  have hsz : h2.hSize = h.hSize := by rw [hh2]; rfl
  have hcap : h2.hCapacity = h.hCapacity := by rw [hh2]; rfl
  obtain ⟨h3, e3, hs3, hc3⟩ := trickleUpFuel_total (h2.hSize.toNat + 1) h2 h2.hSize (by omega)
  have hB : ∀ k, k ≠ h.hSize → h2.A k = h.A k := by
    intro k hk; rw [hA]; simp [hk]
  refine ⟨h3.setSize (h3.hSize + 1), ?_, ?_, ?_, ?_, ?_⟩
  · have := congrArg (Option.map fun g : Heap => g.setSize (g.hSize + 1)) e3
    rw [hh2] at this
    exact this
  · show h3.hSize + 1 = h.hSize + 1
    rw [hs3, hsz]
  · show h3.hCapacity = h.hCapacity
    rw [hc3, hcap]
  · intro hinv
    rw [minHeapInv_iff, heapOrd_iff_parOrd] at hinv ⊢
    show ParOrd h3.A (h3.hSize + 1)
    rw [hs3, hsz]
    rw [hsz] at e3
    exact trickleUpFuel_ord (h.hSize + 1) _ h2 h3 h.hSize e3 (by omega)
      (upInv_written h.A h2.A h.hSize hB hinv)
  · intro h0
    show (slots h3.A (h3.hSize + 1)).Perm (slots h.A h.hSize ++ [_])
    rw [hs3, hsz]
    rw [hsz] at e3
    have := trickleUpFuel_perm (h.hSize + 1) _ h2 h3 h.hSize e3 (by omega)
    rw [slots_written h.A h2.A h.hSize { element := e, priority := p } h0 hB
      (by rw [hA]; simp)] at this
    exact this

theorem parOrd_root_le (A : Int → Pair) (n : Int) (H : ParOrd A n) :
    ∀ (m : Nat) (k : Int), k.toNat ≤ m → 0 ≤ k → k < n → prio A 0 ≤ prio A k := by
  intro m
  induction m with
  | zero =>
    intro k hk h0 _
    have : k = 0 := by omega
    rw [this]
  | succ m ih =>
    intro k hk h0 hn
    by_cases hz : k = 0
    · rw [hz]
    · have h1 := H k (by omega) hn
      have h2 := ih ((k - 1) / 2) (by omega) (by omega) (by omega)
      exact le_trans h2 h1

theorem trickleDownFuel_total (fuel : Nat) : ∀ (h : Heap) (i : Int), 0 ≤ i →
    (h.hSize - 1 - i).toNat < fuel →
    ∃ h', trickleDownFuel fuel h i = some h' ∧ h'.hSize = h.hSize
      ∧ h'.hCapacity = h.hCapacity := by
  induction fuel with
  | zero => intro h i _ hf; omega
  | succ f ih =>
    intro h i hi hf
    simp only [trickleDownFuel]
    split_ifs with c1 c2 c3 c4 c5 c6
    · exact ⟨h, rfl, rfl, rfl⟩
    · exact ih (h.swap i (2 * i + 1)) (2 * i + 1) (by omega)
        (by rw [swap_hSize]; omega)
    · exact ih (h.swap i (2 * i + 2)) (2 * i + 2) (by omega)
        (by rw [swap_hSize]; omega)
    · exact ⟨h, rfl, rfl, rfl⟩
    · exact ⟨_, rfl, rfl, rfl⟩
    · exact ⟨h, rfl, rfl, rfl⟩
    · exact ⟨h, rfl, rfl, rfl⟩

theorem extractMin_spec (h : Heap) :
    ∃ h', h.extractMin = some ((h.A 0).element, h') ∧ h'.hSize = h.hSize - 1
      ∧ h'.hCapacity = h.hCapacity := by
  obtain ⟨h4, e4, hs4, hc4⟩ := trickleDownFuel_total
    (((((h.swap 0 (h.hSize - 1)).setPriority ((h.swap 0 (h.hSize - 1)).hSize - 1) (-1)).setSize
      (((h.swap 0 (h.hSize - 1)).setPriority ((h.swap 0 (h.hSize - 1)).hSize - 1) (-1)).hSize
        - 1)).hSize - 0).toNat + 1)
    (((h.swap 0 (h.hSize - 1)).setPriority ((h.swap 0 (h.hSize - 1)).hSize - 1) (-1)).setSize
      (((h.swap 0 (h.hSize - 1)).setPriority ((h.swap 0 (h.hSize - 1)).hSize - 1) (-1)).hSize
        - 1))
    0 (by omega) (by omega)
  refine ⟨h4, ?_, by rw [hs4]; rfl, by rw [hc4]; rfl⟩
  exact congrArg (Option.map fun g : Heap => ((h.A 0).element, g)) e4

/-! ## The insertion loops of the constructors and of callers -/

theorem insertMany_spec (g : Nat → Pair) : ∀ (l : List Nat) (h : Heap),
    ∃ h', l.foldlM (fun (a : Heap) (i : Nat) => a.insert (g i).element (g i).priority) h
        = some h'
      ∧ h'.hSize = h.hSize + l.length ∧ h'.hCapacity = h.hCapacity
      ∧ (MinHeapInv h → MinHeapInv h')
      ∧ (0 ≤ h.hSize → (contents h').Perm (contents h ++ l.map g)) := by
  intro l
  induction l with
  | nil =>
    intro h
    exact ⟨h, rfl, by simp, rfl, id, fun _ => by simp⟩
  | cons a l ih =>
    intro h
    obtain ⟨h1, e1, s1, c1, i1, p1⟩ := insert_spec h (g a).element (g a).priority
    obtain ⟨h2, e2, s2, c2, i2, p2⟩ := ih h1
    refine ⟨h2, ?_, ?_, ?_, ?_, ?_⟩
    · rw [List.foldlM_cons, e1]
      exact e2
    · rw [s2, s1, List.length_cons]; push_cast; ring
    · rw [c2, c1]
    · exact fun hi => i2 (i1 hi)
    · intro h0
      refine (p2 (by omega)).trans ?_
      rw [List.map_cons]
      have := (p1 h0).append_right (l.map g)
      simpa using this

theorem insertAll_spec : ∀ (ps : List Pair) (h : Heap),
    ∃ h', insertAll h ps = some h'
      ∧ h'.hSize = h.hSize + ps.length ∧ h'.hCapacity = h.hCapacity
      ∧ (MinHeapInv h → MinHeapInv h')
      ∧ (0 ≤ h.hSize → (contents h').Perm (contents h ++ ps)) := by
  intro ps
  induction ps with
  | nil =>
    intro h
    exact ⟨h, rfl, by simp, rfl, id, fun _ => by simp⟩
  | cons a l ih =>
    intro h
    obtain ⟨h1, e1, s1, c1, i1, p1⟩ := insert_spec h a.element a.priority
    obtain ⟨h2, e2, s2, c2, i2, p2⟩ := ih h1
    refine ⟨h2, ?_, ?_, ?_, ?_, ?_⟩
    · simp only [insertAll, e1, Option.some_bind]
      exact e2
    · rw [s2, s1, List.length_cons]; push_cast; ring
    · rw [c2, c1]
    · exact fun hi => i2 (i1 hi)
    · intro h0
      refine (p2 (by omega)).trans ?_
      have := (p1 h0).append_right l
      simpa using this

theorem range_map_getD_eq_zipWith (E P : List Int) (n : Nat) (hE : n ≤ E.length)
    (hP : n ≤ P.length) :
    (List.range n).map (fun i => ({ element := E.getD i 0, priority := P.getD i 0 } : Pair))
      = List.zipWith Pair.mk (E.take n) (P.take n) := by
  apply List.ext_getElem
  · simp [hE, hP]
  · intro i h1 h2
    simp only [List.length_map, List.length_range] at h1
    simp [List.getD_eq_getElem, Nat.lt_of_lt_of_le h1 hE, Nat.lt_of_lt_of_le h1 hP]

theorem int32_of_inRange (x : Int) (h0 : -2147483648 ≤ x) (h1 : x ≤ 2147483647) :
    int32 x = x := by
  unfold int32
  omega

theorem merge_spec (mem : Int → Pair) (sz0 : Int) (Heap1 Heap2 : Heap) (c : Int)
    (hcap : 0 ≤ int32 (int32 (Heap1.hSize + Heap2.hSize) + c)) :
    ∃ h, merge mem sz0 Heap1 Heap2 c = some h
      ∧ h.hSize = sz0 + Heap1.hSize.toNat + Heap2.hSize.toNat
      ∧ h.hCapacity = int32 (int32 (Heap1.hSize + Heap2.hSize) + c) := by
  obtain ⟨h1, e1, s1, c1, _, _⟩ := insertMany_spec (fun i => Heap1.A (i : Int))
    (List.range Heap1.hSize.toNat)
    { A := mem, hCapacity := int32 (int32 (Heap1.hSize + Heap2.hSize) + c), hSize := sz0 }
  obtain ⟨h2, e2, s2, c2, _, _⟩ := insertMany_spec (fun i => Heap2.A (i : Int))
    (List.range Heap2.hSize.toNat) h1
  refine ⟨h2, ?_, ?_, ?_⟩
  · unfold merge insertFrom
    simp only [not_lt.mpr hcap, if_false]
    rw [e1, Option.some_bind]
    exact e2
  · rw [s2, s1, List.length_range, List.length_range]
  · rw [c2, c1]

theorem contents_empty (h : Heap) (h0 : h.hSize = 0) : contents h = [] := by
  simp [contents, h0]

theorem minHeapInv_empty (h : Heap) (h0 : h.hSize ≤ 0) : MinHeapInv h := by
  intro i hi
  omega

/-! ## Sorting by repeated extraction -/

/-- C1, evaluated at a failing input.  Inserting the pairs
`(10,-2), (20,5), (30,-1), (40,7)` into an empty heap of capacity 4 and calling
`extractMin` four times returns the elements 10, 20, 30, 40 and empties the
heap, whatever the buffer held initially; the priorities that go with them,
`-2, 5, -1, 7`, are not in non-decreasing order. -/
theorem sort_by_extraction_minus_one (mem : Int → Pair) :
    ((insertAll (newCap mem 4) minusOnePairs).bind (drain 4)).map
        (fun r => (r.1, r.2.size)) = some (minusOnePairs, 0)
      ∧ ¬ List.Sorted (fun a b : Int => a ≤ b) (minusOnePairs.map Pair.priority) := by
  constructor
  · simp [minusOnePairs, insertAll, newCap, Heap.insert, trickleUp, trickleUpFuel, setElement,
      setPriority, setSlot, setSize, Heap.swap, Int.tdiv, size, drain,
      extractMin, trickleDown, trickleDownFuel, peekMinPriority]
  · simp [minusOnePairs]

/-! ## The min-heap invariant and the minimum -/

/-- C2, evaluated at a failing input.  The heap obtained by inserting
`(10,-2), (20,5), (30,-1), (40,7)` into an empty heap of capacity 4 has size 4
and satisfies the min-heap invariant; `extractMin` on it returns and leaves
priority 5 at index 0 above priority -1 at index 2, so the invariant no longer
holds on the remaining three slots. -/
theorem extractMin_breaks_invariant_minus_one (mem : Int → Pair) :
    ∃ (h h1 : Heap) (e : Int), insertAll (newCap mem 4) minusOnePairs = some h
      ∧ 0 < h.size ∧ MinHeapInv h
      ∧ h.extractMin = some (e, h1) ∧ h1.size = 3
      ∧ (h1.A 0).priority = 5 ∧ (h1.A 2).priority = -1
      ∧ ¬ MinHeapInv h1 := by
  obtain ⟨h, e1, s1, _, i1, _⟩ := insertAll_spec minusOnePairs (newCap mem 4)
  obtain ⟨h1, e2, s2, _⟩ := extractMin_spec h
  have hs : h.hSize = 4 := by rw [s1]; rfl
  have ev : ((insertAll (newCap mem 4) minusOnePairs).bind extractMin).map
      (fun r => ((r.2.A 0).priority, (r.2.A 2).priority)) = some (5, -1) := by
    simp [minusOnePairs, insertAll, newCap, Heap.insert, trickleUp, trickleUpFuel, setElement,
      setPriority, setSlot, setSize, Heap.swap, Int.tdiv,
      extractMin, trickleDown, trickleDownFuel]
  rw [e1, Option.some_bind, e2] at ev
  simp only [Option.map_some', Option.some.injEq, Prod.mk.injEq] at ev
  have hs1 : h1.hSize = 3 := by rw [s2, hs]; rfl
  refine ⟨h, h1, _, e1, ?_, i1 (minHeapInv_empty _ (le_refl _)), e2, hs1, ev.1, ev.2, ?_⟩
  · show 0 < h.hSize
    omega
  · intro hinv
    have := (hinv 0 (by omega)).2 (by rw [hs1]; decide)
    simp only [Nat.cast_zero, mul_zero, zero_add] at this
    rw [ev.1, ev.2] at this
    omega

/-- C3.  For every heap with `size() < capacity()` whose slots `[0, size)`
satisfy the min-heap invariant, and every element and priority, `insert`
returns, the size grows by one, and the slots `[0, size+1)` of the resulting
heap satisfy the min-heap invariant. -/
theorem insert_preserves_minHeapInv (h : Heap) (element priority : Int)
    (hcap : h.size < h.capacity) (hinv : MinHeapInv h) :
    ∃ h1, h.insert element priority = some h1 ∧ h1.size = h.size + 1 ∧ MinHeapInv h1 := by
  obtain ⟨h1, e1, s1, _, i1, _⟩ := insert_spec h element priority
  exact ⟨h1, e1, s1, i1 hinv⟩

theorem insert_preserves_minHeapInv_witness :
    heapW.size < heapW.capacity ∧ MinHeapInv heapW
      ∧ ∃ h1, heapW.insert 14 0 = some h1 ∧ h1.size = heapW.size + 1 ∧ MinHeapInv h1 :=
  ⟨by decide, by decide, insert_preserves_minHeapInv heapW 14 0 (by decide) (by decide)⟩

/-- C4, evaluated at a failing input.  After inserting
`(10,-2), (20,5), (30,-1), (40,7)` into an empty heap of capacity 4 and one
`extractMin` (which returns element 10), three pairs are stored, among them
`(30,-1)`; `peekMinPriority()` is 5 while the minimum stored priority is -1. -/
theorem peekMinPriority_not_minimum_minus_one (mem : Int → Pair) :
    ((insertAll (newCap mem 4) minusOnePairs).bind extractMin).map
        (fun r => (r.1, r.2.size, r.2.peekMinPriority, contents r.2,
          ((contents r.2).map Pair.priority).min?))
      = some (10, 3, 5,
          [{ element := 20, priority := 5 }, { element := 40, priority := 7 },
           { element := 30, priority := -1 }],
          some (-1)) := by
  have e : (3 : Int).toNat = 3 := rfl
  simp [minusOnePairs, insertAll, newCap, Heap.insert, trickleUp, trickleUpFuel, setElement,
    setPriority, setSlot, setSize, Heap.swap, Int.tdiv, size, contents, e, List.range_succ,
    extractMin, trickleDown, trickleDownFuel, peekMinPriority, List.min?]

/-- C5.  For every heap with `size() > 0` that satisfies the min-heap
invariant, `extractMin` returns exactly the element `peekMin()` reported before
the call, which is the element of the pair at index 0, and the priority stored
with it is at most the priority of every pair stored before the call. -/
theorem extractMin_returns_minimum (h : Heap) (hpos : 0 < h.size) (hinv : MinHeapInv h) :
    (∃ h1, h.extractMin = some (h.peekMin, h1))
      ∧ h.peekMin = (h.A 0).element
      ∧ (h.A 0) ∈ contents h
      ∧ ∀ q ∈ contents h, (h.A 0).priority ≤ q.priority := by
  obtain ⟨h1, e1, _, _⟩ := extractMin_spec h
  have hp : 0 < h.hSize := hpos
  refine ⟨⟨h1, e1⟩, rfl, ?_, ?_⟩
  · unfold contents
    rw [List.mem_map]
    exact ⟨0, by rw [List.mem_range]; omega, rfl⟩
  · intro q hq
    unfold contents at hq
    rw [List.mem_map] at hq
    obtain ⟨k, hk, rfl⟩ := hq
    rw [List.mem_range] at hk
    rw [minHeapInv_iff, heapOrd_iff_parOrd] at hinv
    exact parOrd_root_le h.A h.hSize hinv k k (by omega) (by omega) (by omega)

theorem extractMin_returns_minimum_witness :
    0 < heapW.size ∧ MinHeapInv heapW
      ∧ (∃ h1, heapW.extractMin = some (heapW.peekMin, h1))
      ∧ heapW.peekMin = (heapW.A 0).element
      ∧ (heapW.A 0) ∈ contents heapW
      ∧ ∀ q ∈ contents heapW, (heapW.A 0).priority ≤ q.priority :=
  ⟨by decide, by decide, extractMin_returns_minimum heapW (by decide) (by decide)⟩

/-! ## Construction, bookkeeping and the empty heap -/

/-- C6 as stated fails: with `s = 1`, `c = 2147483647` (both `≥ 0`) and arrays
of length 1, the `int` sum `s+c` wraps to `-2147483648`, `new Pair[hCapacity]`
throws, and no heap with `capacity() == s + c` is constructed. -/
theorem fromArrays_capacity_overflow :
    (0 : Int) ≤ 1 ∧ (0 : Int) ≤ 2147483647
      ∧ (1 : Int) ≤ (([5] : List Int).length : Int)
      ∧ (1 : Int) ≤ (([7] : List Int).length : Int)
      ∧ int32 (1 + 2147483647) = -2147483648
      ∧ fromArrays sentinelMem [5] [7] 1 2147483647 = none
      ∧ ¬ ∃ h, fromArrays sentinelMem [5] [7] 1 2147483647 = some h
            ∧ h.size = 1 ∧ h.capacity = 1 + 2147483647 := by
  have e : fromArrays sentinelMem [5] [7] 1 2147483647 = none := by
    simp [fromArrays, int32]
  refine ⟨by decide, by decide, by decide, by decide, by decide, e, ?_⟩
  rintro ⟨h, eh, _⟩
  rw [e] at eh
  exact Option.noConfusion eh

/-- C6, amended.  For every `s ≥ 0`, `c ≥ 0` with `s + c ≤ 2147483647` (the sum
fits an `int`) and arrays `Priorities`, `Elements` of length at least `s` (and
every initial buffer content), the bulk constructor returns a heap with
`size() == s` and `capacity() == s + c` that satisfies the min-heap invariant
and whose slots `[0, s)` hold exactly the multiset of pairs
`(Elements[i], Priorities[i])`, `0 ≤ i < s`.  Moreover priorities `[5,3,8,1]`
with elements `[A,B,C,D]`, `s = 4`, `c = 2` give capacity 6, size 4 and the
extraction order `D, B, A, C`. -/
theorem fromArrays_builds_heap (mem : Int → Pair) (Priorities Elements : List Int)
    (s c : Int) (hs : 0 ≤ s) (hc : 0 ≤ c) (hsum : s + c ≤ 2147483647)
    (hP : s ≤ (Priorities.length : Int)) (hE : s ≤ (Elements.length : Int)) :
    (∃ h, fromArrays mem Priorities Elements s c = some h
        ∧ h.size = s ∧ h.capacity = s + c ∧ MinHeapInv h
        ∧ Multiset.ofList (contents h)
            = Multiset.ofList
                (List.zipWith Pair.mk (Elements.take s.toNat) (Priorities.take s.toNat)))
      ∧ (∀ (mem1 : Int → Pair) (A B C D : Int),
          ∃ h, fromArrays mem1 [5, 3, 8, 1] [A, B, C, D] 4 2 = some h
            ∧ h.capacity = 6 ∧ h.size = 4 ∧ extractN 4 h = some [D, B, A, C]) := by
  constructor
  · have hcap : int32 (s + c) = s + c := int32_of_inRange (s + c) (by omega) hsum
    obtain ⟨h, e1, s1, c1, i1, p1⟩ := insertMany_spec
      (fun i => ({ element := Elements.getD i 0, priority := Priorities.getD i 0 } : Pair))
      (List.range s.toNat) { A := mem, hCapacity := s + c, hSize := 0 }
    refine ⟨h, ?_, ?_, c1, i1 (minHeapInv_empty _ (le_refl _)), ?_⟩
    · unfold fromArrays
      simp only [hcap, show ¬ s + c < 0 by omega, if_false]
      exact e1
    · show h.hSize = s
      rw [s1, List.length_range]
      show (0 : Int) + (s.toNat : Int) = s
      omega
    · have hp := p1 (le_refl _)
      rw [contents_empty { A := mem, hCapacity := s + c, hSize := 0 } rfl, List.nil_append,
        range_map_getD_eq_zipWith Elements Priorities s.toNat (by omega) (by omega)] at hp
      exact Multiset.coe_eq_coe.mpr hp
  · intro mem1 A B C D
    have e : (4 : Int).toNat = 4 := rfl
    have e6 : int32 6 = 6 := by decide
    simp [fromArrays, e, e6, List.range_succ, Heap.insert, trickleUp, trickleUpFuel,
      setElement, setPriority, setSlot, setSize, Heap.swap, Int.tdiv, capacity, size, extractN,
      drain, extractMin, trickleDown, trickleDownFuel, peekMinPriority]

theorem fromArrays_builds_heap_witness :
    (0 : Int) ≤ 4 ∧ (0 : Int) ≤ 2 ∧ (4 : Int) + 2 ≤ 2147483647
      ∧ (4 : Int) ≤ (([5, 3, 8, 1] : List Int).length : Int)
      ∧ (4 : Int) ≤ (([65, 66, 67, 68] : List Int).length : Int)
      ∧ ((∃ h, fromArrays sentinelMem [5, 3, 8, 1] [65, 66, 67, 68] 4 2 = some h
          ∧ h.size = 4 ∧ h.capacity = 4 + 2 ∧ MinHeapInv h
          ∧ Multiset.ofList (contents h)
              = Multiset.ofList
                  (List.zipWith Pair.mk (([65, 66, 67, 68] : List Int).take (4 : Int).toNat)
                    (([5, 3, 8, 1] : List Int).take (4 : Int).toNat)))
        ∧ (∀ (mem1 : Int → Pair) (A B C D : Int),
            ∃ h, fromArrays mem1 [5, 3, 8, 1] [A, B, C, D] 4 2 = some h
              ∧ h.capacity = 6 ∧ h.size = 4 ∧ extractN 4 h = some [D, B, A, C])) :=
  ⟨by decide, by decide, by decide, by decide, by decide,
    fromArrays_builds_heap sentinelMem [5, 3, 8, 1] [65, 66, 67, 68] 4 2
      (by decide) (by decide) (by decide) (by decide) (by decide)⟩

/-- C7, evaluated at a failing input.  The merge constructor never assigns
`hSize`.  Merging the heap holding `(X,5), (Y,2)` with the heap holding `(Z,1)`
and spare capacity 0 gives size 3, capacity 3 and extraction order `Z, Y, X`
when that member happens to hold 0 on entry, but size 4 with capacity 3 when it
happens to hold 1. -/
theorem merge_size_depends_on_uninitialised_hSize (mem : Int → Pair) :
    (∃ h, merge mem 1 heapXY heapZ 0 = some h ∧ h.size = 4 ∧ h.capacity = 3)
      ∧ (merge mem 0 heapXY heapZ 0).map (fun h => (h.size, h.capacity, extractN 3 h))
          = some (3, 3, some [3, 2, 1]) := by
  have e2 : (2 : Int).toNat = 2 := rfl
  have e1 : (1 : Int).toNat = 1 := rfl
  have e3 : int32 (int32 (heapXY.hSize + heapZ.hSize) + 0) = 3 := by decide
  constructor
  · obtain ⟨h, e, hs, hc⟩ := merge_spec mem 1 heapXY heapZ 0 (by decide)
    exact ⟨h, e, hs, hc.trans e3⟩
  · have e4 : int32 3 = 3 := by decide
    simp [merge, insertFrom, heapXY, heapZ, e1, e2, e4, List.range_succ, Heap.insert,
      trickleUp, trickleUpFuel, setElement, setPriority, setSlot, setSize, Heap.swap, Int.tdiv,
      capacity, size, extractN, drain, extractMin, trickleDown, trickleDownFuel,
      peekMinPriority]

/-- C8.  For every heap with `size() < capacity()`, `insert(e, p)` returns a
heap whose size is one larger and whose capacity is unchanged; for every heap
with `size() > 0`, `extractMin` returns a heap whose size is one smaller and
whose capacity is unchanged. -/
theorem size_capacity_bookkeeping (h : Heap) (e p : Int) :
    (h.size < h.capacity →
        ∃ h1, h.insert e p = some h1 ∧ h1.size = h.size + 1 ∧ h1.capacity = h.capacity)
      ∧ (0 < h.size →
        ∃ r, h.extractMin = some r ∧ r.2.size = h.size - 1 ∧ r.2.capacity = h.capacity) := by
  constructor
  · intro _
    obtain ⟨h1, e1, s1, c1, _, _⟩ := insert_spec h e p
    exact ⟨h1, e1, s1, c1⟩
  · intro _
    obtain ⟨h1, e1, s1, c1⟩ := extractMin_spec h
    exact ⟨_, e1, s1, c1⟩

theorem size_capacity_bookkeeping_witness :
    (∃ h1, heapW.insert 14 0 = some h1 ∧ h1.size = heapW.size + 1
        ∧ h1.capacity = heapW.capacity)
      ∧ (∃ r, heapW.extractMin = some r ∧ r.2.size = heapW.size - 1
        ∧ r.2.capacity = heapW.capacity) :=
  ⟨(size_capacity_bookkeeping heapW 14 0).1 (by decide),
    (size_capacity_bookkeeping heapW 14 0).2 (by decide)⟩

/-- C9 as stated fails: `Heap(0)` followed by one `insert` is a state with
`size() == 1` and `capacity() == 0`, and `Heap()` followed by one `extractMin`
is a state with `size() == -1`, so not every state reachable by arbitrary
`insert` and `extractMin` calls satisfies `0 ≤ size() ≤ capacity()`. -/
theorem size_bound_fails_without_preconditions :
    (∃ h1, (newCap sentinelMem 0).insert 7 3 = some h1 ∧ ReachableAny h1
        ∧ h1.size = 1 ∧ h1.capacity = 0)
      ∧ (∃ (e : Int) (h1 : Heap), (Heap.new sentinelMem).extractMin = some (e, h1)
        ∧ ReachableAny h1 ∧ h1.size = -1 ∧ h1.capacity = 10)
      ∧ ¬ (∀ h, ReachableAny h → h.size ≤ h.capacity)
      ∧ ¬ (∀ h, ReachableAny h → 0 ≤ h.size)
      ∧ ¬ ∀ h, ReachableAny h → 0 ≤ h.size ∧ h.size ≤ h.capacity := by
  obtain ⟨h1, e1, s1, c1, _, _⟩ := insert_spec (newCap sentinelMem 0) 7 3
  have hr : ReachableAny h1 :=
    ReachableAny.insert _ h1 7 3 (ReachableAny.newCap sentinelMem 0 (le_refl _)) e1
  have hs : h1.size = 1 := s1
  have hc : h1.capacity = 0 := c1
  obtain ⟨h2, e2, s2, c2⟩ := extractMin_spec (Heap.new sentinelMem)
  have hr2 : ReachableAny h2 :=
    ReachableAny.extractMin _ h2 _ (ReachableAny.new sentinelMem) e2
  have hs2 : h2.size = -1 := s2
  have hc2 : h2.capacity = 10 := c2
  have n1 : ¬ (∀ h, ReachableAny h → h.size ≤ h.capacity) := by
    intro hall
    have := hall h1 hr
    rw [hs, hc] at this
    omega
  have n2 : ¬ (∀ h, ReachableAny h → 0 ≤ h.size) := by
    intro hall
    have := hall h2 hr2
    rw [hs2] at this
    omega
  exact ⟨⟨h1, e1, hr, hs, hc⟩, ⟨_, h2, e2, hr2, hs2, hc2⟩, n1, n2,
    fun hall => n1 fun h hh => (hall h hh).2⟩

/-- C9, amended.  In every state reachable from `Heap()` or `Heap(c)` with
`c ≥ 0` by `insert` calls made while `size() < capacity()` and `extractMin`
calls made while `size() > 0`, `0 ≤ size() ≤ capacity()` holds. -/
theorem reachable_size_bound (h : Heap) (hr : Reachable h) :
    0 ≤ h.size ∧ h.size ≤ h.capacity := by
  induction hr with
  | new mem => exact ⟨le_refl _, by show (0 : Int) ≤ 10; decide⟩
  | newCap mem c hc => exact ⟨le_refl _, hc⟩
  | insert h h1 e p _ hlt he ih =>
    obtain ⟨h2, e2, s2, c2, _, _⟩ := insert_spec h e p
    rw [he, Option.some.injEq] at e2
    subst e2
    have a : h.hSize < h.hCapacity := hlt
    have b : 0 ≤ h.hSize := ih.1
    show 0 ≤ h1.hSize ∧ h1.hSize ≤ h1.hCapacity
    omega
  | extractMin h h1 e _ hpos he ih =>
    obtain ⟨h2, e2, s2, c2⟩ := extractMin_spec h
    rw [he, Option.some.injEq, Prod.mk.injEq] at e2
    obtain ⟨_, e3⟩ := e2
    subst e3
    have a : 0 < h.hSize := hpos
    have b : h.hSize ≤ h.hCapacity := ih.2
    show 0 ≤ h1.hSize ∧ h1.hSize ≤ h1.hCapacity
    omega

theorem reachable_size_bound_witness :
    ∃ (h1 h2 h3 : Heap), (newCap sentinelMem 3).insert 7 3 = some h1
      ∧ h1.insert 8 1 = some h2 ∧ h2.extractMin = some (8, h3)
      ∧ h3.size = 1 ∧ h3.capacity = 3
      ∧ Reachable h3 ∧ (0 ≤ h3.size ∧ h3.size ≤ h3.capacity) := by
  obtain ⟨h1, e1, s1, c1, _, _⟩ := insert_spec (newCap sentinelMem 3) 7 3
  obtain ⟨h2, e2, s2, c2, _, _⟩ := insert_spec h1 8 1
  obtain ⟨h3, e3, s3, c3⟩ := extractMin_spec h2
  have ev : (((newCap sentinelMem 3).insert 7 3).bind fun h => h.insert 8 1).map
      (fun h => (h.A 0).element) = some 8 := by decide
  rw [e1, Option.some_bind, e2] at ev
  simp only [Option.map_some', Option.some.injEq] at ev
  have z1 : h1.hSize = 1 := by rw [s1]; rfl
  have k1 : h1.hCapacity = 3 := by rw [c1]; rfl
  have z2 : h2.hSize = 2 := by rw [s2, z1]; rfl
  have k2 : h2.hCapacity = 3 := by rw [c2, k1]
  have z3 : h3.hSize = 1 := by rw [s3, z2]; rfl
  have k3 : h3.hCapacity = 3 := by rw [c3, k2]
  have r1 : Reachable h1 :=
    Reachable.insert _ h1 7 3 (Reachable.newCap sentinelMem 3 (by decide)) (by decide) e1
  have r2 : Reachable h2 :=
    Reachable.insert h1 h2 8 1 r1 (by show h1.hSize < h1.hCapacity; rw [z1, k1]; decide) e2
  have r3 : Reachable h3 :=
    Reachable.extractMin h2 h3 _ r2 (by show 0 < h2.hSize; rw [z2]; decide) e3
  exact ⟨h1, h2, h3, e1, e2, by rw [← ev]; exact e3, z3, k3, r3, reachable_size_bound h3 r3⟩

/-- C10 as stated fails: on the freshly constructed empty heap `Heap()` over a
buffer whose pairs are all `(42, 17)`, `peekMin` returns 42, `peekMinPriority`
returns 17, and `extractMin` returns 42 and leaves `size() == -1` with
priority `-1` written at index `-1`. -/
theorem empty_heap_operations_return :
    (Heap.new staleMem).size = 0
      ∧ (Heap.new staleMem).peekMin = 42
      ∧ (Heap.new staleMem).peekMinPriority = 17
      ∧ (Heap.new staleMem).extractMin.map
          (fun r => (r.1, r.2.size, (r.2.A (-1)).priority, ((Heap.new staleMem).A (-1)).priority))
          = some (42, -1, -1, 17) := by
  refine ⟨rfl, rfl, rfl, ?_⟩
  decide

/-- C10, amended.  The class has no error signalling.  For every heap with
`size() == 0`, `peekMin` and `peekMinPriority` return the element and the
priority held in slot 0 of the buffer, and `extractMin` returns that element
and leaves `size() == -1` with `capacity()` unchanged. -/
theorem empty_heap_no_error (h : Heap) (h0 : h.size = 0) :
    h.peekMin = (h.A 0).element
      ∧ h.peekMinPriority = (h.A 0).priority
      ∧ ∃ h1, h.extractMin = some ((h.A 0).element, h1) ∧ h1.size = -1
          ∧ h1.capacity = h.capacity := by
  obtain ⟨h1, e1, s1, c1⟩ := extractMin_spec h
  have hz : h.hSize = 0 := h0
  refine ⟨rfl, rfl, h1, e1, ?_, c1⟩
  show h1.hSize = -1
  rw [s1, hz]
  rfl

theorem empty_heap_no_error_witness :
    (Heap.new staleMem).size = 0
      ∧ (Heap.new staleMem).peekMin = ((Heap.new staleMem).A 0).element
      ∧ (Heap.new staleMem).peekMinPriority = ((Heap.new staleMem).A 0).priority
      ∧ ∃ h1, (Heap.new staleMem).extractMin = some (((Heap.new staleMem).A 0).element, h1)
          ∧ h1.size = -1 ∧ h1.capacity = (Heap.new staleMem).capacity :=
  ⟨rfl, empty_heap_no_error (Heap.new staleMem) rfl⟩

/-! ## Which slots the repairs touch -/

theorem insert_eq (h : Heap) (e p : Int) :
    h.insert e p = (trickleUpFuel (h.hSize.toNat + 1) (h.written e p) h.hSize).map
      fun g => g.setSize (g.hSize + 1) := rfl

theorem written_A (h : Heap) (e p : Int) (k : Int) :
    (h.written e p).A k = if k = h.hSize then { element := e, priority := p } else h.A k :=
  insert_written_A h e p k

theorem extractMin_eq (h : Heap) :
    h.extractMin = (trickleDownFuel ((h.hSize - 1 - 0).toNat + 1) h.vacated 0).map
      fun g => ((h.A 0).element, g) := rfl

theorem vacated_hSize (h : Heap) : h.vacated.hSize = h.hSize - 1 := rfl

theorem vacated_hCapacity (h : Heap) : h.vacated.hCapacity = h.hCapacity := rfl

theorem vacated_A (h : Heap) (k : Int) :
    h.vacated.A k = if k = h.hSize - 1 then { h.A 0 with priority := -1 }
      else if k = 0 then h.A (h.hSize - 1) else h.A k := by
  simp only [vacated, setSize, setPriority, setSlot, swap]
  split_ifs <;> simp_all

theorem trickleUpFuel_frame (fuel : Nat) : ∀ (h h' : Heap) (i : Int),
    trickleUpFuel fuel h i = some h' → ∀ k, i < k → h'.A k = h.A k := by
  induction fuel with
  | zero => intro h h' i e; simp [trickleUpFuel] at e
  | succ f ih =>
    intro h h' i e k hk
    by_cases hc : i ≤ 0 ∨ (h.A (Int.tdiv (i - 1) 2)).priority < (h.A i).priority
    · simp only [trickleUpFuel, hc, if_true, Option.some.injEq] at e
      rw [← e]
    · simp only [trickleUpFuel, hc, if_false] at e
      have hpos : 0 < i := by
        by_contra hcon
        exact hc (Or.inl (by omega))
      rw [tdiv_parent i hpos] at e
      rw [ih _ _ _ e k (by omega), swap_A]
      simp [show k ≠ i by omega, show k ≠ (i - 1) / 2 by omega]

theorem trickleUpFuel_lands (fuel : Nat) : ∀ (h h' : Heap) (i : Int),
    trickleUpFuel fuel h i = some h' → 0 ≤ i → ∃ j, 0 ≤ j ∧ j ≤ i ∧ h'.A j = h.A i := by
  induction fuel with
  | zero => intro h h' i e; simp [trickleUpFuel] at e
  | succ f ih =>
    intro h h' i e hi
    by_cases hc : i ≤ 0 ∨ (h.A (Int.tdiv (i - 1) 2)).priority < (h.A i).priority
    · simp only [trickleUpFuel, hc, if_true, Option.some.injEq] at e
      exact ⟨i, hi, le_refl _, by rw [← e]⟩
    · simp only [trickleUpFuel, hc, if_false] at e
      have hpos : 0 < i := by
        by_contra hcon
        exact hc (Or.inl (by omega))
      rw [tdiv_parent i hpos] at e
      obtain ⟨j, hj0, hjp, hj⟩ := ih _ _ _ e (by omega)
      refine ⟨j, hj0, by omega, ?_⟩
      rw [hj, swap_A]
      simp [show (i - 1) / 2 ≠ i by omega]

theorem trickleDownFuel_frame_below (fuel : Nat) : ∀ (h h' : Heap) (i : Int),
    trickleDownFuel fuel h i = some h' → 0 ≤ i → ∀ k, k < i → h'.A k = h.A k := by
  induction fuel with
  | zero => intro h h' i e; simp [trickleDownFuel] at e
  | succ f ih =>
    intro h h' i e hi k hk
    simp only [trickleDownFuel] at e
    split_ifs at e with c1 c2 c3 c4 c5 c6
    · rw [Option.some.injEq] at e; rw [← e]
    · rw [ih _ _ _ e (by omega) k (by omega), swap_A]
      simp [show k ≠ i by omega, show k ≠ 2 * i + 1 by omega]
    · rw [ih _ _ _ e (by omega) k (by omega), swap_A]
      simp [show k ≠ i by omega, show k ≠ 2 * i + 2 by omega]
    · rw [Option.some.injEq] at e; rw [← e]
    · rw [Option.some.injEq] at e; rw [← e, swap_A]
      simp [show k ≠ i by omega, show k ≠ 2 * i + 1 by omega]
    · rw [Option.some.injEq] at e; rw [← e]
    · rw [Option.some.injEq] at e; rw [← e]

theorem trickleDownFuel_frame_far (fuel : Nat) : ∀ (h h' : Heap) (i : Int),
    trickleDownFuel fuel h i = some h' → 0 ≤ i →
    ∀ k, 2 * h.hSize - 1 ≤ k → h'.A k = h.A k := by
  induction fuel with
  | zero => intro h h' i e; simp [trickleDownFuel] at e
  | succ f ih =>
    intro h h' i e hi k hk
    simp only [trickleDownFuel] at e
    split_ifs at e with c1 c2 c3 c4 c5 c6
    · rw [Option.some.injEq] at e; rw [← e]
    · rw [ih (h.swap i (2 * i + 1)) h' (2 * i + 1) e (by omega) k hk, swap_A]
      simp [show k ≠ i by omega, show k ≠ 2 * i + 1 by omega]
    · rw [ih (h.swap i (2 * i + 2)) h' (2 * i + 2) e (by omega) k hk, swap_A]
      simp [show k ≠ i by omega, show k ≠ 2 * i + 2 by omega]
    · rw [Option.some.injEq] at e; rw [← e]
    · rw [Option.some.injEq] at e; rw [← e, swap_A]
      simp [show k ≠ i by omega, show k ≠ 2 * i + 1 by omega]
    · rw [Option.some.injEq] at e; rw [← e]
    · rw [Option.some.injEq] at e; rw [← e]

/-- Slots in a range `[n, m)` that all hold priority `-1`, with `n` the size,
are never written by `trickleDown`. -/
theorem trickleDownFuel_frame_sentinel (m : Int) (fuel : Nat) : ∀ (h h' : Heap) (i : Int),
    trickleDownFuel fuel h i = some h' → 0 ≤ i →
    (∀ k, h.hSize ≤ k → k < m → (h.A k).priority = -1) →
    ∀ k, h.hSize ≤ k → k < m → h'.A k = h.A k := by
  induction fuel with
  | zero => intro h h' i e; simp [trickleDownFuel] at e
  | succ f ih =>
    intro h h' i e hi hS k hk hkm
    have step : ∀ c : Int, (h.A c).priority ≠ -1 → i < h.hSize - 1 →
        (∀ k, (h.swap i c).hSize ≤ k → k < m → ((h.swap i c).A k).priority = -1)
          ∧ (h.swap i c).A k = h.A k := by
      intro c hc hlt
      have hcne : ∀ k, h.hSize ≤ k → k < m → k ≠ c := by
        intro k h1 h2 h3
        rw [h3] at h1 h2
        exact hc (hS c h1 h2)
      constructor
      · intro k h1 h2
        rw [swap_hSize] at h1
        rw [swap_A]
        simp only [hcne k h1 h2, show k ≠ i by omega, if_false]
        exact hS k h1 h2
      · rw [swap_A]
        simp only [hcne k hk hkm, show k ≠ i by omega, if_false]
    simp only [trickleDownFuel] at e
    split_ifs at e with c1 c2 c3 c4 c5 c6
    · rw [Option.some.injEq] at e; rw [← e]
    · have hs := step (2 * i + 1) c2.2 (by omega)
      rw [ih _ _ _ e (by omega) hs.1 k hk hkm, hs.2]
    · have hs := step (2 * i + 2) c2.1 (by omega)
      rw [ih _ _ _ e (by omega) hs.1 k hk hkm, hs.2]
    · rw [Option.some.injEq] at e; rw [← e]
    · rw [Option.some.injEq] at e
      rw [← e]
      exact (step (2 * i + 1) c5 (by omega)).2
    · rw [Option.some.injEq] at e; rw [← e]
    · rw [Option.some.injEq] at e; rw [← e]

/-! ## `trickleDown` under the sentinel assumption -/

theorem swap_outside (h : Heap) (n m i c : Int)
    (hS : ∀ k, n ≤ k → k < m → (h.A k).priority = -1) (hc : (h.A c).priority ≠ -1)
    (hi : i < n) : ∀ k, n ≤ k → k < m → (h.swap i c).A k = h.A k := by
  intro k h1 h2
  have hkc : k ≠ c := by
    intro h3
    rw [h3] at h1 h2
    exact hc (hS c h1 h2)
  rw [swap_A]
  simp only [hkc, show k ≠ i by omega, if_false]

theorem trickleDownFuel_perm (fuel : Nat) : ∀ (h h' : Heap) (i : Int),
    trickleDownFuel fuel h i = some h' → 0 ≤ i →
    (∀ k, h.hSize ≤ k → k < 2 * h.hSize - 1 → (h.A k).priority = -1) →
    (slots h'.A h.hSize).Perm (slots h.A h.hSize) := by
  induction fuel with
  | zero => intro h h' i e; simp [trickleDownFuel] at e
  | succ f ih =>
    intro h h' i e hi hS
    have inside : ∀ c : Int, (h.A c).priority ≠ -1 → c < 2 * h.hSize - 1 → c < h.hSize := by
      intro c hc hlt
      by_contra hcon
      exact hc (hS c (by omega) hlt)
    have step : ∀ c : Int, (h.A c).priority ≠ -1 → i < h.hSize - 1 →
        ∀ k, (h.swap i c).hSize ≤ k → k < 2 * (h.swap i c).hSize - 1 →
          ((h.swap i c).A k).priority = -1 := by
      intro c hc hlt k h1 h2
      rw [swap_hSize] at h1 h2
      rw [swap_outside h h.hSize (2 * h.hSize - 1) i c hS hc (by omega) k h1 h2]
      exact hS k h1 h2
    simp only [trickleDownFuel] at e
    split_ifs at e with c1 c2 c3 c4 c5 c6
    · rw [Option.some.injEq] at e; rw [← e]
    · exact (ih _ _ _ e (by omega) (step _ c2.2 (by omega))).trans
        (slots_swap_perm h h.hSize i (2 * i + 1) hi (by omega) (by omega)
          (inside _ c2.2 (by omega)))
    · exact (ih _ _ _ e (by omega) (step _ c2.1 (by omega))).trans
        (slots_swap_perm h h.hSize i (2 * i + 2) hi (by omega) (by omega)
          (inside _ c2.1 (by omega)))
    · rw [Option.some.injEq] at e; rw [← e]
    · rw [Option.some.injEq] at e
      rw [← e]
      exact slots_swap_perm h h.hSize i (2 * i + 1) hi (by omega) (by omega)
        (inside _ c5 (by omega))
    · rw [Option.some.injEq] at e; rw [← e]
    · rw [Option.some.injEq] at e; rw [← e]

theorem parOrd_of_downInv (A : Int → Pair) (n c : Int) (H : DownInv A n c)
    (hch : ∀ k, 0 < k → k < n → (k - 1) / 2 = c → prio A c ≤ prio A k) : ParOrd A n := by
  intro k hk hkn
  by_cases hq : (k - 1) / 2 = c
  · rw [hq]; exact hch k hk hkn hq
  · exact H.1 k hk hkn hq

theorem downInv_swap (h : Heap) (n i c : Int) (hi : 0 ≤ i)
    (hc : c = 2 * i + 1 ∨ c = 2 * i + 2) (hcn : c < n)
    (hlt : prio h.A c ≤ prio h.A i)
    (hother : ∀ k, 0 < k → k < n → (k - 1) / 2 = i → prio h.A c ≤ prio h.A k)
    (H : DownInv h.A n i) : DownInv (h.swap i c).A n c := by
  have hic : i ≠ c := by omega
  have hpc : (c - 1) / 2 = i := by omega
  constructor
  · intro k hk hkn hq
    by_cases hkc : k = c
    · subst hkc
      rw [hpc, prio_swap_left h i k hic, prio_swap_right]
      exact hlt
    · by_cases hki : k = i
      · subst hki
        rw [prio_swap_left h k c hic,
          prio_swap_other h k c ((k - 1) / 2) (by omega) (by omega)]
        exact H.2 c (by omega) hcn hpc hk
      · rw [prio_swap_other h i c k hkc hki]
        by_cases hqi : (k - 1) / 2 = i
        · rw [hqi, prio_swap_left h i c hic]
          exact hother k hk hkn hqi
        · rw [prio_swap_other h i c _ hq hqi]
          exact H.1 k hk hkn hqi
  · intro k hk hkn hq hc0
    rw [hpc, prio_swap_left h i c hic, prio_swap_other h i c k (by omega) (by omega)]
    have := H.1 k hk hkn (by omega)
    rw [hq] at this
    exact this

theorem sentinelOk_swap (h : Heap) (n i c : Int) (hS : SentinelOk h.A n)
    (hi : 0 ≤ i) (hin : i < n) (hc : 0 ≤ c) (hcn : c < n) :
    SentinelOk (h.swap i c).A n := by
  constructor
  · intro k hk hkn
    unfold prio
    rw [swap_A]
    split_ifs
    · exact hS.1 i hi hin
    · exact hS.1 c hc hcn
    · exact hS.1 k hk hkn
  · intro k hk hkn
    unfold prio
    rw [swap_A]
    simp only [show k ≠ c by omega, show k ≠ i by omega, if_false]
    exact hS.2 k hk hkn

theorem trickleDownFuel_ord (fuel : Nat) : ∀ (h h' : Heap) (i : Int),
    trickleDownFuel fuel h i = some h' → 0 ≤ i → SentinelOk h.A h.hSize →
    DownInv h.A h.hSize i → ParOrd h'.A h.hSize := by
  induction fuel with
  | zero => intro h h' i e; simp [trickleDownFuel] at e
  | succ f ih =>
    intro h h' i e hi hS H
    have inside : ∀ c : Int, prio h.A c ≠ -1 → c < 2 * h.hSize - 1 → c < h.hSize := by
      intro c hc hlt
      by_contra hcon
      exact hc (hS.2 c (by omega) hlt)
    have outside : ∀ c : Int, prio h.A c = -1 → 0 ≤ c → h.hSize ≤ c := by
      intro c hc h0
      by_contra hcon
      exact hS.1 c h0 (by omega) hc
    simp only [trickleDownFuel] at e
    split_ifs at e with c1 c2 c3 c4 c5 c6
    · rw [Option.some.injEq] at e
      rw [← e]
      exact parOrd_of_downInv _ _ i H (fun k hk hkn hq => by omega)
    · have hl := inside (2 * i + 1) c2.2 (by omega)
      have hr := inside (2 * i + 2) c2.1 (by omega)
      have c3' : prio h.A i > prio h.A (2 * i + 1) ∨ prio h.A i > prio h.A (2 * i + 2) := c3
      have c4' : prio h.A (2 * i + 1) < prio h.A (2 * i + 2) := c4
      refine ih (h.swap i (2 * i + 1)) h' (2 * i + 1) e (by omega)
        (sentinelOk_swap h h.hSize i _ hS hi (by omega) (by omega) hl)
        (downInv_swap h h.hSize i _ hi (Or.inl rfl) hl (by omega) ?_ H)
      intro k hk hkn hq
      have hk2 : k = 2 * i + 1 ∨ k = 2 * i + 2 := by omega
      rcases hk2 with rfl | rfl
      · exact le_refl _
      · exact le_of_lt c4'
    · have hl := inside (2 * i + 1) c2.2 (by omega)
      have hr := inside (2 * i + 2) c2.1 (by omega)
      have c3' : prio h.A i > prio h.A (2 * i + 1) ∨ prio h.A i > prio h.A (2 * i + 2) := c3
      have c4' : ¬ prio h.A (2 * i + 1) < prio h.A (2 * i + 2) := c4
      refine ih (h.swap i (2 * i + 2)) h' (2 * i + 2) e (by omega)
        (sentinelOk_swap h h.hSize i _ hS hi (by omega) (by omega) hr)
        (downInv_swap h h.hSize i _ hi (Or.inr rfl) hr (by omega) ?_ H)
      intro k hk hkn hq
      have hk2 : k = 2 * i + 1 ∨ k = 2 * i + 2 := by omega
      rcases hk2 with rfl | rfl
      · exact not_lt.mp c4'
      · exact le_refl _
    · rw [Option.some.injEq] at e
      rw [← e]
      have c3' : ¬ (prio h.A i > prio h.A (2 * i + 1) ∨ prio h.A i > prio h.A (2 * i + 2)) := c3
      refine parOrd_of_downInv _ _ i H ?_
      intro k hk hkn hq
      have hk2 : k = 2 * i + 1 ∨ k = 2 * i + 2 := by omega
      rcases hk2 with rfl | rfl
      · exact not_lt.mp fun hlt => c3' (Or.inl hlt)
      · exact not_lt.mp fun hlt => c3' (Or.inr hlt)
    · have hl := inside (2 * i + 1) c5 (by omega)
      have hrm : prio h.A (2 * i + 2) = -1 := by
        by_contra hcon
        exact c2 ⟨hcon, c5⟩
      have hr := outside (2 * i + 2) hrm (by omega)
      have c6' : prio h.A i > prio h.A (2 * i + 1) := c6
      rw [Option.some.injEq] at e
      rw [← e]
      have hD : DownInv (h.swap i (2 * i + 1)).A h.hSize (2 * i + 1) := by
        refine downInv_swap h _ i _ hi (Or.inl rfl) hl (by omega) ?_ H
        intro k hk hkn hq
        have hk2 : k = 2 * i + 1 := by omega
        rw [hk2]
      exact parOrd_of_downInv _ _ _ hD (fun k hk hkn hq => by omega)
    · have hrm : prio h.A (2 * i + 2) = -1 := by
        by_contra hcon
        exact c2 ⟨hcon, c5⟩
      have hr := outside (2 * i + 2) hrm (by omega)
      have c6' : ¬ prio h.A i > prio h.A (2 * i + 1) := c6
      rw [Option.some.injEq] at e
      rw [← e]
      refine parOrd_of_downInv _ _ i H ?_
      intro k hk hkn hq
      have hk2 : k = 2 * i + 1 := by omega
      rw [hk2]
      exact not_lt.mp c6'
    · have hlm : prio h.A (2 * i + 1) = -1 := by
        by_contra hcon
        exact c5 hcon
      have hl := outside (2 * i + 1) hlm (by omega)
      rw [Option.some.injEq] at e
      rw [← e]
      exact parOrd_of_downInv _ _ i H (fun k hk hkn hq => by omega)

/-! ## Insertion at capacity and ties -/

/-- C11 as stated fails: the heap holding `(Y,2), (X,5)` has
`size() == capacity() == 2`; `insert(7, 9)` on it returns, leaves `capacity()`
at 2 and yields `size() == 3`, a state with `size() > capacity()`. -/
theorem insert_at_capacity_overflows :
    heapXY.size = heapXY.capacity
      ∧ (heapXY.insert 7 9).map (fun r => (r.size, r.capacity, decide (r.size > r.capacity)))
          = some (3, 2, true) := by
  decide

/-- C11, amended.  `insert` performs no capacity check and never grows the
buffer: for every heap with `size() == capacity()`, `insert(e, p)` returns,
leaves `capacity()` unchanged and yields `size() == capacity() + 1`. -/
theorem insert_at_capacity (h : Heap) (e p : Int) (hfull : h.size = h.capacity) :
    ∃ h1, h.insert e p = some h1 ∧ h1.capacity = h.capacity
      ∧ h1.size = h.capacity + 1 := by
  obtain ⟨h1, e1, s1, c1, _, _⟩ := insert_spec h e p
  have hf : h.hSize = h.hCapacity := hfull
  refine ⟨h1, e1, c1, ?_⟩
  show h1.hSize = h.hCapacity + 1
  rw [s1, hf]

theorem insert_at_capacity_witness :
    heapZ.size = heapZ.capacity
      ∧ ∃ h1, heapZ.insert 4 0 = some h1 ∧ h1.capacity = heapZ.capacity
          ∧ h1.size = heapZ.capacity + 1 :=
  ⟨by decide, insert_at_capacity heapZ 4 0 (by decide)⟩

/-- C12 as stated fails: in the heap with priorities 1, 4, 2 (size 3,
capacity 5) the parent slot `(3-1)/2 = 1` of the new leaf holds priority 4;
`insert(99, 4)` swaps: afterwards index 1 holds `(99,4)` and index 3 holds the
former parent pair `(12,4)`. -/
theorem insert_equal_priority_swaps :
    0 < heapW.size ∧ heapW.size < heapW.capacity
      ∧ heapW.A ((heapW.size - 1) / 2) = { element := 12, priority := 4 }
      ∧ (heapW.insert 99 4).map (fun r => (r.A ((heapW.size - 1) / 2), r.A heapW.size))
          = some ({ element := 99, priority := 4 }, { element := 12, priority := 4 }) := by
  decide

/-- C12, amended.  For every heap with `0 < size < capacity` and every
`insert(e, p)`: when the parent slot `(size-1)/2` of the new leaf holds a
priority strictly smaller than `p`, no swap happens (every slot other than
`size` is unchanged and `(e, p)` is at index `size`); when it holds priority
exactly `p`, or any priority not smaller than `p`, the swap happens (the
parent's pair is at index `size` afterwards and `(e, p)` is at an index at most
`(size-1)/2`).  In general `trickleUp` at a node `i > 0` stops when the
parent's priority is strictly smaller than the node's and otherwise, also on a
tie, swaps node and parent and continues from the parent. -/
theorem insert_swaps_unless_parent_smaller (h : Heap) (e p : Int) (hpos : 0 < h.size)
    (hcap : h.size < h.capacity) :
    (∃ h1, h.insert e p = some h1
      ∧ ((h.A ((h.size - 1) / 2)).priority < p →
          ∀ k, h1.A k = if k = h.size then { element := e, priority := p } else h.A k)
      ∧ (p ≤ (h.A ((h.size - 1) / 2)).priority →
          h1.A h.size = h.A ((h.size - 1) / 2)
            ∧ ∃ j, 0 ≤ j ∧ j ≤ (h.size - 1) / 2
                ∧ h1.A j = { element := e, priority := p }))
    ∧ ∀ (g : Heap) (i : Int) (fuel : Nat), 0 < i →
        ((g.A ((i - 1) / 2)).priority < (g.A i).priority →
            trickleUpFuel (fuel + 1) g i = some g)
        ∧ ((g.A i).priority ≤ (g.A ((i - 1) / 2)).priority →
            trickleUpFuel (fuel + 1) g i
              = trickleUpFuel fuel (g.swap ((i - 1) / 2) i) ((i - 1) / 2)) := by
  have hp : 0 < h.hSize := hpos
  have step : ∀ (g : Heap) (i : Int) (fuel : Nat), 0 < i →
      ((g.A ((i - 1) / 2)).priority < (g.A i).priority →
          trickleUpFuel (fuel + 1) g i = some g)
      ∧ ((g.A i).priority ≤ (g.A ((i - 1) / 2)).priority →
          trickleUpFuel (fuel + 1) g i
            = trickleUpFuel fuel (g.swap ((i - 1) / 2) i) ((i - 1) / 2)) := by
    intro g i fuel hi
    constructor
    · intro hlt
      simp only [trickleUpFuel, tdiv_parent i hi, hlt, or_true, if_true]
    · intro hle
      have hn : ¬ (i ≤ 0 ∨ (g.A ((i - 1) / 2)).priority < (g.A i).priority) := by
        intro hcon
        rcases hcon with h0 | hlt
        · omega
        · omega
      simp only [trickleUpFuel, tdiv_parent i hi, hn, if_false]
  refine ⟨?_, step⟩
  obtain ⟨h3, e3, _, _⟩ := trickleUpFuel_total (h.hSize.toNat + 1) (h.written e p) h.hSize
    (by omega)
  have hws : (h.written e p).A h.hSize = { element := e, priority := p } := by
    rw [written_A]; simp
  have hwp : (h.written e p).A ((h.hSize - 1) / 2) = h.A ((h.hSize - 1) / 2) := by
    rw [written_A]; simp [show (h.hSize - 1) / 2 ≠ h.hSize by omega]
  refine ⟨h3.setSize (h3.hSize + 1), by rw [insert_eq, e3]; rfl, ?_, ?_⟩
  · intro hlt k
    have hlt' : ((h.written e p).A ((h.hSize - 1) / 2)).priority
        < ((h.written e p).A h.hSize).priority := by
      rw [hws, hwp]; exact hlt
    rw [(step (h.written e p) h.hSize h.hSize.toNat hp).1 hlt', Option.some.injEq] at e3
    show h3.A k = _
    rw [← e3]
    exact written_A h e p k
  · intro hle
    have hle' : ((h.written e p).A h.hSize).priority
        ≤ ((h.written e p).A ((h.hSize - 1) / 2)).priority := by
      rw [hws, hwp]; exact hle
    rw [(step (h.written e p) h.hSize h.hSize.toNat hp).2 hle'] at e3
    constructor
    · show h3.A h.hSize = _
      rw [trickleUpFuel_frame _ _ _ _ e3 h.hSize (by omega), swap_A]
      simp only [if_true]
      exact hwp
    · obtain ⟨j, hj0, hjp, hj⟩ := trickleUpFuel_lands _ _ _ _ e3 (by omega)
      refine ⟨j, hj0, hjp, ?_⟩
      show h3.A j = _
      rw [hj, swap_A]
      simp only [show (h.hSize - 1) / 2 ≠ h.hSize by omega, if_false, if_true]
      exact hws

theorem insert_swaps_unless_parent_smaller_witness :
    0 < heapW.size ∧ heapW.size < heapW.capacity
    ∧ ((∃ h1, heapW.insert 99 4 = some h1
      ∧ ((heapW.A ((heapW.size - 1) / 2)).priority < 4 →
          ∀ k, h1.A k = if k = heapW.size then { element := 99, priority := 4 }
            else heapW.A k)
      ∧ (4 ≤ (heapW.A ((heapW.size - 1) / 2)).priority →
          h1.A heapW.size = heapW.A ((heapW.size - 1) / 2)
            ∧ ∃ j, 0 ≤ j ∧ j ≤ (heapW.size - 1) / 2
                ∧ h1.A j = { element := 99, priority := 4 }))
    ∧ ∀ (g : Heap) (i : Int) (fuel : Nat), 0 < i →
        ((g.A ((i - 1) / 2)).priority < (g.A i).priority →
            trickleUpFuel (fuel + 1) g i = some g)
        ∧ ((g.A i).priority ≤ (g.A ((i - 1) / 2)).priority →
            trickleUpFuel (fuel + 1) g i
              = trickleUpFuel fuel (g.swap ((i - 1) / 2) i) ((i - 1) / 2))) :=
  ⟨by decide, by decide, insert_swaps_unless_parent_smaller heapW 99 4 (by decide) (by decide)⟩

/-! ## Ties and the sentinel in `trickleDown` -/

/-- C13 as stated fails: `extractMin` on the full heap with priorities
1, 3, 3, 9 runs trickle-down at the root with priority 9 above two children of
equal priority 3; the root is swapped with the right child: afterwards index 0
holds the former right child `(23,3)`, the left child `(22,3)` is still at
index 1, and `(24,9)` is at index 2. -/
theorem trickleDown_tie_counterexample :
    heapTie.vacated.size = 3
      ∧ (heapTie.vacated.A 0, heapTie.vacated.A 1, heapTie.vacated.A 2)
          = ({ element := 24, priority := 9 }, { element := 22, priority := 3 },
             { element := 23, priority := 3 })
      ∧ (heapTie.vacated.trickleDown 0).map contents
          = some [{ element := 23, priority := 3 }, { element := 22, priority := 3 },
                  { element := 24, priority := 9 }]
      ∧ heapTie.extractMin.map (fun r => (r.1, contents r.2))
          = some (21, [{ element := 23, priority := 3 }, { element := 22, priority := 3 },
                       { element := 24, priority := 9 }]) := by
  decide

/-- C13, amended.  For every heap state and node `i ≥ 0` whose children `2i+1`
and `2i+2` both exist (are `< size`) and hold equal priorities, different from
`-1`, that are strictly smaller than node `i`'s priority, `trickleDown(i)` swaps
the node with the right child `2i+2` and continues from `2i+2`: it returns,
index `i` then holds the former right child and the left child is unchanged. -/
theorem trickleDown_tie_goes_right (h : Heap) (i : Int) (hi : 0 ≤ i)
    (hr : 2 * i + 2 < h.size)
    (htie : (h.A (2 * i + 1)).priority = (h.A (2 * i + 2)).priority)
    (hne : (h.A (2 * i + 1)).priority ≠ -1)
    (hlt : (h.A (2 * i + 1)).priority < (h.A i).priority) :
    (∀ fuel : Nat, trickleDownFuel (fuel + 1) h i
        = trickleDownFuel fuel (h.swap i (2 * i + 2)) (2 * i + 2))
      ∧ ∃ h1, h.trickleDown i = some h1 ∧ h1.A i = h.A (2 * i + 2)
          ∧ h1.A (2 * i + 1) = h.A (2 * i + 1) := by
  have hr' : 2 * i + 2 < h.hSize := hr
  have step : ∀ fuel : Nat, trickleDownFuel (fuel + 1) h i
      = trickleDownFuel fuel (h.swap i (2 * i + 2)) (2 * i + 2) := by
    intro fuel
    have c1 : ¬ i ≥ h.hSize - 1 := by omega
    have c2 : (h.A (2 * i + 2)).priority ≠ -1 ∧ (h.A (2 * i + 1)).priority ≠ -1 :=
      ⟨by rw [← htie]; exact hne, hne⟩
    have c3 : (h.A i).priority > (h.A (2 * i + 1)).priority
        ∨ (h.A i).priority > (h.A (2 * i + 2)).priority := Or.inl hlt
    have c4 : ¬ (h.A (2 * i + 1)).priority < (h.A (2 * i + 2)).priority := by
      rw [htie]; exact lt_irrefl _
    simp only [trickleDownFuel, c1, if_false]
    rw [if_pos c2, if_pos c3, if_neg c4]
  refine ⟨step, ?_⟩
  obtain ⟨h1, e1, _, _⟩ := trickleDownFuel_total ((h.hSize - i).toNat + 1) h i hi (by omega)
  refine ⟨h1, e1, ?_, ?_⟩
  · rw [step] at e1
    rw [trickleDownFuel_frame_below _ _ _ _ e1 (by omega) i (by omega), swap_A]
    simp [show i ≠ 2 * i + 2 by omega]
  · rw [step] at e1
    rw [trickleDownFuel_frame_below _ _ _ _ e1 (by omega) (2 * i + 1) (by omega), swap_A]
    simp [show 2 * i + 1 ≠ i by omega]

theorem trickleDown_tie_goes_right_witness :
    (0 : Int) ≤ 0 ∧ 2 * 0 + 2 < heapTie.vacated.size
      ∧ (heapTie.vacated.A (2 * 0 + 1)).priority = (heapTie.vacated.A (2 * 0 + 2)).priority
      ∧ (heapTie.vacated.A (2 * 0 + 1)).priority ≠ -1
      ∧ (heapTie.vacated.A (2 * 0 + 1)).priority < (heapTie.vacated.A 0).priority
      ∧ ((∀ fuel : Nat, trickleDownFuel (fuel + 1) heapTie.vacated 0
            = trickleDownFuel fuel (heapTie.vacated.swap 0 (2 * 0 + 2)) (2 * 0 + 2))
        ∧ ∃ h1, heapTie.vacated.trickleDown 0 = some h1
            ∧ h1.A 0 = heapTie.vacated.A (2 * 0 + 2)
            ∧ h1.A (2 * 0 + 1) = heapTie.vacated.A (2 * 0 + 1)) :=
  ⟨by decide, by decide, by decide, by decide, by decide,
    trickleDown_tie_goes_right heapTie.vacated 0 (by decide) (by decide) (by decide)
      (by decide) (by decide)⟩

/-- C14.  Inserting pairs with priorities `-2, 5, -1, 7` in that order into an
empty heap of capacity at least 4 gives a heap that satisfies the min-heap
invariant and stores the pair with priority `-1`.  One `extractMin` returns and
leaves three pairs: priority 5 at index 0, 7 at index 1 and the pair with
priority `-1` still stored at index 2, so `peekMinPriority()` is 5 and the
min-heap invariant is violated.  The cause: at any node `i < size - 1` whose
right child slot holds priority `-1`, `trickleDown` neither compares with nor
swaps with that child, whether or not its index is below `size`. -/
theorem sentinel_misread (mem : Int → Pair) (cap a b c d : Int) (hcap : 4 ≤ cap) :
    (∃ (h h1 : Heap),
        insertAll (newCap mem cap)
            [{ element := a, priority := -2 }, { element := b, priority := 5 },
             { element := c, priority := -1 }, { element := d, priority := 7 }] = some h
        ∧ MinHeapInv h ∧ { element := c, priority := -1 } ∈ contents h
        ∧ h.extractMin = some (a, h1)
        ∧ contents h1 = [{ element := b, priority := 5 }, { element := d, priority := 7 },
                         { element := c, priority := -1 }]
        ∧ h1.peekMinPriority = 5
        ∧ ¬ MinHeapInv h1)
      ∧ ∀ (g : Heap) (i : Int) (fuel : Nat), i < g.size - 1 →
          (g.A (2 * i + 2)).priority = -1 →
          trickleDownFuel (fuel + 1) g i
            = some (if (g.A (2 * i + 1)).priority ≠ -1
                      ∧ (g.A i).priority > (g.A (2 * i + 1)).priority
                    then g.swap i (2 * i + 1) else g) := by
  constructor
  · obtain ⟨h, e1, s1, _, i1, _⟩ := insertAll_spec
      [{ element := a, priority := -2 }, { element := b, priority := 5 },
       { element := c, priority := -1 }, { element := d, priority := 7 }] (newCap mem cap)
    obtain ⟨h1, e2, s2, _⟩ := extractMin_spec h
    have hs : h.hSize = 4 := by rw [s1]; rfl
    have hs1 : h1.hSize = 3 := by rw [s2, hs]; rfl
    have e4 : (4 : Int).toNat = 4 := rfl
    have e3 : (3 : Int).toNat = 3 := rfl
    have ev1 : (insertAll (newCap mem cap)
        [{ element := a, priority := -2 }, { element := b, priority := 5 },
         { element := c, priority := -1 }, { element := d, priority := 7 }]).map
          (fun r => (r.A 0, r.A 2)) = some (⟨a, -2⟩, ⟨c, -1⟩) := by
      simp [insertAll, newCap, Heap.insert, trickleUp, trickleUpFuel, setElement,
        setPriority, setSlot, setSize, Heap.swap, Int.tdiv]
    have ev2 : ((insertAll (newCap mem cap)
        [{ element := a, priority := -2 }, { element := b, priority := 5 },
         { element := c, priority := -1 }, { element := d, priority := 7 }]).bind
          extractMin).map (fun r => (r.2.A 0, r.2.A 1, r.2.A 2))
        = some (⟨b, 5⟩, ⟨d, 7⟩, ⟨c, -1⟩) := by
      simp [insertAll, newCap, Heap.insert, trickleUp, trickleUpFuel, setElement,
        setPriority, setSlot, setSize, Heap.swap, Int.tdiv,
        extractMin, trickleDown, trickleDownFuel]
    rw [e1] at ev1
    rw [e1, Option.some_bind, e2] at ev2
    simp only [Option.map_some', Option.some.injEq, Prod.mk.injEq] at ev1 ev2
    obtain ⟨v0, v1, v2⟩ := ev2
    have e0 : (h.A 0).element = a := by rw [ev1.1]
    refine ⟨h, h1, e1, i1 (minHeapInv_empty _ (le_refl _)), ?_, by rw [← e0]; exact e2, ?_,
      ?_, ?_⟩
    · unfold contents
      rw [List.mem_map]
      exact ⟨2, by rw [List.mem_range, hs]; decide, ev1.2⟩
    · unfold contents
      rw [hs1, e3]
      simp [List.range_succ, v0, v1, v2]
    · show (h1.A 0).priority = 5
      rw [v0]
    · intro hinv
      have := (hinv 0 (by rw [hs1]; decide)).2 (by rw [hs1]; decide)
      simp only [Nat.cast_zero, mul_zero, zero_add] at this
      rw [v0, v2] at this
      simp at this
  · intro g i fuel hlt hm
    have c1 : ¬ i ≥ g.hSize - 1 := not_le.mpr hlt
    have c2 : ¬ ((g.A (2 * i + 2)).priority ≠ -1 ∧ (g.A (2 * i + 1)).priority ≠ -1) :=
      fun hc => hc.1 hm
    simp only [trickleDownFuel, c1, c2, if_false]
    split_ifs <;> simp_all

theorem sentinel_misread_witness :
    (4 : Int) ≤ 4
    ∧ ((∃ (h h1 : Heap),
        insertAll (newCap sentinelMem 4)
            [{ element := 10, priority := -2 }, { element := 20, priority := 5 },
             { element := 30, priority := -1 }, { element := 40, priority := 7 }] = some h
        ∧ MinHeapInv h ∧ { element := 30, priority := -1 } ∈ contents h
        ∧ h.extractMin = some (10, h1)
        ∧ contents h1 = [{ element := 20, priority := 5 }, { element := 40, priority := 7 },
                         { element := 30, priority := -1 }]
        ∧ h1.peekMinPriority = 5
        ∧ ¬ MinHeapInv h1)
      ∧ ∀ (g : Heap) (i : Int) (fuel : Nat), i < g.size - 1 →
          (g.A (2 * i + 2)).priority = -1 →
          trickleDownFuel (fuel + 1) g i
            = some (if (g.A (2 * i + 1)).priority ≠ -1
                      ∧ (g.A i).priority > (g.A (2 * i + 1)).priority
                    then g.swap i (2 * i + 1) else g)) :=
  ⟨by decide, sentinel_misread sentinelMem 4 10 20 30 40 (by decide)⟩

/-! ## `heapify`, `extractMin` under the sentinel assumption, termination -/

/-- C15, evaluated at a failing input.  On the buffer with stored priorities
5, 7, -1 (size 3, capacity 4), which is the buffer the class itself reaches by
`insert(10,-2)`, `insert(20,5)`, `insert(30,-1)`, `insert(40,7)`,
`extractMin()`, `heapify` returns and leaves the three pairs where they are:
priority 5 at index 0 stays above priority -1 at index 2, so the slots
`[0, size)` do not satisfy the min-heap invariant afterwards. -/
theorem heapify_fails_minus_one :
    0 ≤ bufferMinusOne.size ∧ bufferMinusOne.size ≤ bufferMinusOne.capacity
      ∧ ((insertAll (newCap sentinelMem 4) minusOnePairs).bind extractMin).map
          (fun r => (r.2.size, r.2.capacity, contents r.2))
          = some (bufferMinusOne.size, bufferMinusOne.capacity, contents bufferMinusOne)
      ∧ bufferMinusOne.heapify.map (fun r => (r.size, contents r, decide (MinHeapInv r)))
          = some (3, [{ element := 20, priority := 5 }, { element := 40, priority := 7 },
                      { element := 30, priority := -1 }], false) := by
  decide

theorem vacated_sentinelOk (h : Heap) (hpos : 0 < h.hSize)
    (hstored : ∀ k : Int, 0 ≤ k → k < h.hSize → (h.A k).priority ≠ -1)
    (hpast : ∀ k : Int, h.hSize ≤ k → k < 2 * h.hSize - 3 → (h.A k).priority = -1) :
    SentinelOk h.vacated.A h.vacated.hSize := by
  rw [vacated_hSize]
  constructor
  · intro k hk hkn
    unfold prio
    rw [vacated_A]
    simp only [show k ≠ h.hSize - 1 by omega, if_false]
    split_ifs
    · exact hstored _ (by omega) (by omega)
    · exact hstored _ hk (by omega)
  · intro k hk hkn
    unfold prio
    rw [vacated_A]
    split_ifs with a b
    · rfl
    · omega
    · exact hpast k (by omega) (by omega)

theorem vacated_downInv (h : Heap) (hinv : ParOrd h.A h.hSize) :
    DownInv h.vacated.A h.vacated.hSize 0 := by
  rw [vacated_hSize]
  constructor
  · intro c hc hcn hq
    have h1 := hinv c hc (by omega)
    unfold prio at h1 ⊢
    rw [vacated_A, vacated_A]
    simp only [show c ≠ h.hSize - 1 by omega, show c ≠ 0 by omega,
      show (c - 1) / 2 ≠ h.hSize - 1 by omega, hq, if_false]
    exact h1
  · intro c _ _ _ h0
    omega

/-- C16.  For every heap with `size() > 0` that satisfies the min-heap
invariant, in which no stored pair in `[0, size)` has priority `-1` and every
slot at an index in `[size, 2·size - 4]` (exactly the child indices `≥ size` of
the nodes trickle-down can visit, whether below or past the capacity) holds
priority `-1`,
`extractMin` returns and the slots `[0, size-1)` of the resulting heap satisfy
the min-heap invariant. -/
theorem extractMin_preserves_minHeapInv_sentinel (h : Heap) (hpos : 0 < h.size)
    (hinv : MinHeapInv h)
    (hstored : ∀ k : Int, 0 ≤ k → k < h.size → (h.A k).priority ≠ -1)
    (hpast : ∀ k : Int, h.size ≤ k → k ≤ 2 * h.size - 4 → (h.A k).priority = -1) :
    ∃ (e : Int) (h1 : Heap), h.extractMin = some (e, h1) ∧ h1.size = h.size - 1
      ∧ MinHeapInv h1 := by
  obtain ⟨h1, e1, s1, _⟩ := extractMin_spec h
  refine ⟨_, h1, e1, s1, ?_⟩
  rw [minHeapInv_iff, heapOrd_iff_parOrd] at hinv ⊢
  rw [extractMin_eq] at e1
  obtain ⟨h4, e4, hh⟩ := Option.map_eq_some'.mp e1
  have e5 : h4 = h1 := (Prod.mk.inj hh).2
  subst e5
  have := trickleDownFuel_ord _ h.vacated h4 0 e4 (le_refl _)
    (vacated_sentinelOk h hpos hstored
      (fun k h1 h2 => hpast k h1 (by have hsz : h.size = h.hSize := rfl; omega)))
    (vacated_downInv h hinv)
  rw [vacated_hSize] at this
  rw [s1]
  exact this

theorem extractMin_preserves_minHeapInv_sentinel_witness :
    0 < heapSix.size ∧ MinHeapInv heapSix
      ∧ (∀ k : Int, 0 ≤ k → k < heapSix.size → (heapSix.A k).priority ≠ -1)
      ∧ (∀ k : Int, heapSix.size ≤ k → k ≤ 2 * heapSix.size - 4 → (heapSix.A k).priority = -1)
      ∧ ∃ (e : Int) (h1 : Heap), heapSix.extractMin = some (e, h1)
          ∧ h1.size = heapSix.size - 1 ∧ MinHeapInv h1 :=
  ⟨by decide, by decide, by decide, by decide,
    extractMin_preserves_minHeapInv_sentinel heapSix (by decide) (by decide) (by decide)
      (by decide)⟩

/-- C17.  For every heap with `size() > 0` in which every slot at an index in
`[size, 2·size - 4]` (exactly the child indices `≥ size` of the nodes
trickle-down can visit, whether below or past the capacity) holds priority
`-1`, `extractMin`
returns and the multiset of pairs in slots `[0, size-1)` afterwards is the
multiset of pairs in slots `[0, size)` before the call with one occurrence of
the pair at index 0 removed; no slot at an index `≥ size` is changed, so
trickle-down never swaps a stored pair with a slot outside the heap. -/
theorem extractMin_removes_root_pair (h : Heap) (hpos : 0 < h.size)
    (hpast : ∀ k : Int, h.size ≤ k → k ≤ 2 * h.size - 4 → (h.A k).priority = -1) :
    ∃ (e : Int) (h1 : Heap), h.extractMin = some (e, h1)
      ∧ Multiset.ofList (contents h1) = (Multiset.ofList (contents h)).erase (h.A 0)
      ∧ ∀ k : Int, h.size ≤ k → h1.A k = h.A k := by
  have hp : 0 < h.hSize := hpos
  have hpast' : ∀ k : Int, h.hSize ≤ k → k < 2 * h.hSize - 3 → (h.A k).priority = -1 :=
    fun k h1 h2 => hpast k h1 (by have hsz : h.size = h.hSize := rfl; omega)
  obtain ⟨h1, e1, s1, _⟩ := extractMin_spec h
  refine ⟨_, h1, e1, ?_⟩
  rw [extractMin_eq] at e1
  obtain ⟨h4, e4, hh⟩ := Option.map_eq_some'.mp e1
  have e5 : h4 = h1 := (Prod.mk.inj hh).2
  subst e5
  refine and_comm.mp ⟨?_, ?_⟩
  swap
  have hsent : ∀ k, h.vacated.hSize ≤ k → k < 2 * h.vacated.hSize - 1 →
      (h.vacated.A k).priority = -1 := by
    intro k hk hkn
    rw [vacated_hSize] at hk hkn
    rw [vacated_A]
    split_ifs with a b
    · rfl
    · omega
    · exact hpast' k (by omega) (by omega)
  have p1 := trickleDownFuel_perm _ h.vacated h4 0 e4 (le_refl _) hsent
  rw [vacated_hSize] at p1
  have p2 := slots_swap_perm h h.hSize 0 (h.hSize - 1) (le_refl _) hp (by omega) (by omega)
  have e2 : slots (h.swap 0 (h.hSize - 1)).A h.hSize
      = slots h.vacated.A (h.hSize - 1) ++ [h.A 0] := by
    have := slots_written h.vacated.A (h.swap 0 (h.hSize - 1)).A (h.hSize - 1) (h.A 0)
      (by omega)
      (by
        intro k hk
        rw [vacated_A, swap_A]
        simp only [hk, if_false])
      (by rw [swap_A]; simp)
    rw [show h.hSize - 1 + 1 = h.hSize by omega] at this
    exact this
  rw [e2] at p2
  have p3 : (contents h).Perm (h.A 0 :: contents h4) := by
    show (slots h.A h.hSize).Perm (h.A 0 :: slots h4.A h4.hSize)
    rw [s1]
    refine p2.symm.trans ?_
    refine List.perm_append_comm.trans ?_
    exact List.Perm.cons _ p1.symm
  rw [Multiset.coe_eq_coe.mpr p3, ← Multiset.cons_coe, Multiset.erase_cons_head]
  · have hsent : ∀ k, h.vacated.hSize ≤ k → k < 2 * h.vacated.hSize - 1 →
        (h.vacated.A k).priority = -1 := by
      intro k hk hkn
      rw [vacated_hSize] at hk hkn
      rw [vacated_A]
      split_ifs with a b
      · rfl
      · omega
      · exact hpast' k (by omega) (by omega)
    intro k hk
    have hk' : h.hSize ≤ k := hk
    have hv : h.vacated.A k = h.A k := by
      rw [vacated_A]
      simp only [show k ≠ h.hSize - 1 by omega, show k ≠ 0 by omega, if_false]
    by_cases hfar : 2 * h.vacated.hSize - 1 ≤ k
    · rw [trickleDownFuel_frame_far _ h.vacated h4 0 e4 (le_refl _) k hfar, hv]
    · rw [trickleDownFuel_frame_sentinel (2 * h.vacated.hSize - 1) _ h.vacated h4 0 e4
        (le_refl _)
        hsent k (by rw [vacated_hSize]; omega) (by omega), hv]

theorem extractMin_removes_root_pair_witness :
    0 < heapSix.size
      ∧ (∀ k : Int, heapSix.size ≤ k → k ≤ 2 * heapSix.size - 4 → (heapSix.A k).priority = -1)
      ∧ ∃ (e : Int) (h1 : Heap), heapSix.extractMin = some (e, h1)
          ∧ Multiset.ofList (contents h1)
              = (Multiset.ofList (contents heapSix)).erase (heapSix.A 0)
          ∧ ∀ k : Int, heapSix.size ≤ k → h1.A k = heapSix.A k :=
  ⟨by decide, by decide, extractMin_removes_root_pair heapSix (by decide) (by decide)⟩

/-- C18.  The predicate "every buffer slot at an index `i` with
`size ≤ i < capacity` holds priority `-1`" is preserved by `insert` when
`size() < capacity()` and by `extractMin` when `size() > 0`: each returns, and
if the predicate holds before the call it holds after. -/
theorem sentinelSlots_preserved (h : Heap) (e p : Int) :
    (h.size < h.capacity → SentinelSlots h →
        ∃ h1, h.insert e p = some h1 ∧ SentinelSlots h1)
      ∧ (0 < h.size → SentinelSlots h →
        ∃ (m : Int) (h1 : Heap), h.extractMin = some (m, h1) ∧ SentinelSlots h1) := by
  constructor
  · intro _ hS
    obtain ⟨h3, e3, s3, c3⟩ := trickleUpFuel_total (h.hSize.toNat + 1) (h.written e p)
      h.hSize (by omega)
    refine ⟨h3.setSize (h3.hSize + 1), by rw [insert_eq, e3]; rfl, ?_⟩
    intro k hk hkc
    have hk' : h.hSize + 1 ≤ k := by
      have : h3.hSize + 1 ≤ k := hk
      rw [s3] at this
      exact this
    have hkc' : k < h.hCapacity := by
      have : k < h3.hCapacity := hkc
      rw [c3] at this
      exact this
    show (h3.A k).priority = -1
    rw [trickleUpFuel_frame _ _ _ _ e3 k (by omega), written_A]
    simp only [show k ≠ h.hSize by omega, if_false]
    exact hS k (by omega) hkc'
  · intro hpos hS
    have hp : 0 < h.hSize := hpos
    obtain ⟨h1, e1, s1, c1⟩ := extractMin_spec h
    refine ⟨_, h1, e1, ?_⟩
    rw [extractMin_eq] at e1
    obtain ⟨h4, e4, hh⟩ := Option.map_eq_some'.mp e1
    have e5 : h4 = h1 := (Prod.mk.inj hh).2
    subst e5
    have hV : ∀ k, h.vacated.hSize ≤ k → k < h.hCapacity → (h.vacated.A k).priority = -1 := by
      intro k hk hkc
      rw [vacated_hSize] at hk
      rw [vacated_A]
      split_ifs with a b
      · rfl
      · omega
      · exact hS k (by omega) hkc
    intro k hk hkc
    rw [s1] at hk
    rw [c1] at hkc
    rw [trickleDownFuel_frame_sentinel h.hCapacity _ h.vacated h4 0 e4 (le_refl _) hV k
      (by rw [vacated_hSize]; exact hk) hkc]
    exact hV k (by rw [vacated_hSize]; exact hk) hkc

theorem sentinelSlots_preserved_witness :
    heapW.size < heapW.capacity ∧ 0 < heapW.size ∧ SentinelSlots heapW
      ∧ (∃ h1, heapW.insert 14 0 = some h1 ∧ SentinelSlots h1)
      ∧ (∃ (m : Int) (h1 : Heap), heapW.extractMin = some (m, h1) ∧ SentinelSlots h1) :=
  ⟨by decide, by decide, by decide,
    (sentinelSlots_preserved heapW 14 0).1 (by decide) (by decide),
    (sentinelSlots_preserved heapW 14 0).2 (by decide) (by decide)⟩

/-- C19.  For every heap state, whatever the buffer holds at any index, and
every index `i ≥ 0`: `trickleDown(i)` returns; it returns at once when
`i ≥ size - 1`; each call either returns without recursing or recurses on a
strictly larger index (`2i+1` or `2i+2`) with `i < size - 1`, so that
`(size - 1 - i) + 1` nested calls always suffice.  `trickleUp(i)` returns; it
returns at once at index 0; each call either returns without recursing or
recurses on the strictly smaller index `(i-1)/2` with `i > 0`, so that `i + 1`
nested calls always suffice. -/
theorem trickle_repairs_terminate (h : Heap) (i : Int) (hi : 0 ≤ i) :
    ((∃ h1, h.trickleDown i = some h1)
      ∧ (∀ fuel : Nat, (h.size - 1 - i).toNat < fuel →
          ∃ h1, trickleDownFuel fuel h i = some h1)
      ∧ (∀ fuel : Nat, h.size - 1 ≤ i → trickleDownFuel (fuel + 1) h i = some h)
      ∧ (∀ fuel : Nat,
          (∃ h1, trickleDownFuel (fuel + 1) h i = some h1)
            ∨ (i < h.size - 1 ∧ ∃ j, i < j ∧ (j = 2 * i + 1 ∨ j = 2 * i + 2)
                ∧ trickleDownFuel (fuel + 1) h i = trickleDownFuel fuel (h.swap i j) j)))
    ∧ ((∃ h1, h.trickleUp i = some h1)
      ∧ (∀ fuel : Nat, i.toNat < fuel → ∃ h1, trickleUpFuel fuel h i = some h1)
      ∧ (∀ fuel : Nat, i = 0 → trickleUpFuel (fuel + 1) h i = some h)
      ∧ (∀ fuel : Nat,
          (∃ h1, trickleUpFuel (fuel + 1) h i = some h1)
            ∨ (0 < i ∧ (i - 1) / 2 < i ∧ 0 ≤ (i - 1) / 2
                ∧ trickleUpFuel (fuel + 1) h i
                    = trickleUpFuel fuel (h.swap ((i - 1) / 2) i) ((i - 1) / 2)))) := by
  refine ⟨⟨?_, ?_, ?_, ?_⟩, ⟨?_, ?_, ?_, ?_⟩⟩
  · obtain ⟨h1, e1, _, _⟩ := trickleDownFuel_total ((h.hSize - i).toNat + 1) h i hi (by omega)
    exact ⟨h1, e1⟩
  · intro fuel hf
    obtain ⟨h1, e1, _, _⟩ := trickleDownFuel_total fuel h i hi hf
    exact ⟨h1, e1⟩
  · intro fuel hge
    have c1 : i ≥ h.hSize - 1 := hge
    simp only [trickleDownFuel, c1, if_true]
  · intro fuel
    simp only [trickleDownFuel]
    split_ifs with c1 c2 c3 c4 c5 c6
    · exact Or.inl ⟨_, rfl⟩
    · exact Or.inr ⟨not_le.mp c1, 2 * i + 1, by omega, Or.inl rfl, rfl⟩
    · exact Or.inr ⟨not_le.mp c1, 2 * i + 2, by omega, Or.inr rfl, rfl⟩
    · exact Or.inl ⟨_, rfl⟩
    · exact Or.inl ⟨_, rfl⟩
    · exact Or.inl ⟨_, rfl⟩
    · exact Or.inl ⟨_, rfl⟩
  · obtain ⟨h1, e1, _, _⟩ := trickleUpFuel_total (i.toNat + 1) h i (by omega)
    exact ⟨h1, e1⟩
  · intro fuel hf
    obtain ⟨h1, e1, _, _⟩ := trickleUpFuel_total fuel h i hf
    exact ⟨h1, e1⟩
  · intro fuel h0
    have c : i ≤ 0 := by omega
    simp only [trickleUpFuel, c, true_or, if_true]
  · intro fuel
    by_cases hc : i ≤ 0 ∨ (h.A (Int.tdiv (i - 1) 2)).priority < (h.A i).priority
    · exact Or.inl ⟨h, by simp only [trickleUpFuel, hc, if_true]⟩
    · have hpos : 0 < i := by
        by_contra hcon
        exact hc (Or.inl (by omega))
      refine Or.inr ⟨hpos, by omega, by omega, ?_⟩
      simp only [trickleUpFuel, hc, if_false]
      rw [tdiv_parent i hpos]

theorem trickle_repairs_terminate_witness :
    (0 : Int) ≤ 1
    ∧ ((∃ h1, bufferEight.trickleDown 1 = some h1)
      ∧ (∀ fuel : Nat, (bufferEight.size - 1 - 1).toNat < fuel →
          ∃ h1, trickleDownFuel fuel bufferEight 1 = some h1)
      ∧ (∀ fuel : Nat, bufferEight.size - 1 ≤ 1 →
          trickleDownFuel (fuel + 1) bufferEight 1 = some bufferEight)
      ∧ (∀ fuel : Nat,
          (∃ h1, trickleDownFuel (fuel + 1) bufferEight 1 = some h1)
            ∨ ((1 : Int) < bufferEight.size - 1
                ∧ ∃ j, 1 < j ∧ (j = 2 * 1 + 1 ∨ j = 2 * 1 + 2)
                ∧ trickleDownFuel (fuel + 1) bufferEight 1
                    = trickleDownFuel fuel (bufferEight.swap 1 j) j)))
    ∧ ((∃ h1, bufferEight.trickleUp 1 = some h1)
      ∧ (∀ fuel : Nat, (1 : Int).toNat < fuel →
          ∃ h1, trickleUpFuel fuel bufferEight 1 = some h1)
      ∧ (∀ fuel : Nat, (1 : Int) = 0 →
          trickleUpFuel (fuel + 1) bufferEight 1 = some bufferEight)
      ∧ (∀ fuel : Nat,
          (∃ h1, trickleUpFuel (fuel + 1) bufferEight 1 = some h1)
            ∨ ((0 : Int) < 1 ∧ ((1 : Int) - 1) / 2 < 1 ∧ (0 : Int) ≤ (1 - 1) / 2
                ∧ trickleUpFuel (fuel + 1) bufferEight 1
                    = trickleUpFuel fuel (bufferEight.swap ((1 - 1) / 2) 1)
                        ((1 - 1) / 2)))) :=
  ⟨by decide, trickle_repairs_terminate bufferEight 1 (by decide)⟩

end Heap

end HeapSpec
